import Mathlib

/-! MiniLog: log storage engine and metrics storage engine.

A shallow embedding of `main.go` (the log storage engine: buffer, compaction,
chunk codec, tiered query) and `metrics.go` (the metrics ring store and the
liveness calculator), followed by theorems about the embedded functions.

Conventions of the embedding

* A Go `string` or `[]byte` is a list of characters (`Str`).  The delimiters the
  code looks for (`[`, `]`, the newline and the chunk separator) are ASCII, so
  the byte offsets used by the source are positions of this list.
* The Go library functions the code calls but that are not part of the
  repository (`unicode.ToLower`, the lz4 writer and reader, `time.Format` and
  `time.Parse`) are the fields of a record `Lib`, and every function that calls
  one of them takes the record as its first argument.
* `time.Now()` is an argument of the function that calls it.
* A method that holds a lock for its whole body is one atomic function on the
  state.
-/

namespace MiniLog

/-! ## Strings -/

/-- A Go string (or byte slice): a sequence of characters. -/
abbrev Str := List Char

/-- The Go library functions used by the code, which are not in the repository. -/
structure Lib where
  /-- The function `unicode.ToLower` on one rune. -/
  toLowerRune : Char → Char
  /-- What an lz4 writer emits for the bytes it was given. -/
  lz4Compress : Str → Str
  /-- What `io.ReadAll` reads from an lz4 reader, `none` when it reports an error. -/
  lz4Decompress : Str → Option Str
  /-- The text of `Time.Format("2006-01-02 15:04:05")` for a wall clock reading,
  given in seconds. -/
  timeFormat : Int → Str
  /-- The result of `time.Parse("2006-01-02 15:04:05", s)`: the wall clock
  reading in seconds, `none` for an error. -/
  timeParse : Str → Option Int

/-- The function `strings.ToLower`: every rune is mapped by `unicode.ToLower`. -/
def toLower (lib : Lib) (s : Str) : Str := s.map lib.toLowerRune

/-- The function `strings.Contains`. -/
def contains (s substr : Str) : Bool := decide (substr <:+: s)

/-- Loop of `splitOn`: `skip` characters of a separator that was just found
are still to be passed over, `cur` is the current piece, reversed. -/
def splitAux (sep : Str) : Str → Nat → Str → List Str
  | [], _, cur => [cur.reverse]
  | _ :: rest, skip + 1, cur => splitAux sep rest skip cur
  | c :: rest, 0, cur =>
    if sep.isPrefixOf (c :: rest) then
      cur.reverse :: splitAux sep rest (sep.length - 1) []
    else
      splitAux sep rest 0 (c :: cur)

/-- The functions `strings.Split` and `bytes.Split` for a non-empty separator:
the pieces between the leftmost non-overlapping occurrences of `sep`. -/
def splitOn (s sep : Str) : List Str := splitAux sep s 0 []

/-- The function `bytes.Index(s, "\n")`: the position of the first newline,
`none` standing for `-1`. -/
def indexNewline : Str → Option Nat
  | [] => none
  | c :: rest => if c = '\n' then some 0 else (indexNewline rest).map (· + 1)

/-- The slice expression `s[lo:hi]` for `0 ≤ lo ≤ hi ≤ len(s)`. -/
def slice (s : Str) (lo hi : Int) : Str := (s.drop lo.toNat).take (hi.toNat - lo.toNat)

/-- Decimal digits of a natural number, most significant first; `fuel` bounds
the number of digits. -/
def natDigits : Nat → Nat → Str
  | 0, _ => []
  | fuel + 1, n =>
    if n < 10 then [Char.ofNat (48 + n)]
    else natDigits fuel (n / 10) ++ [Char.ofNat (48 + n % 10)]

/-- The verb `%d` of `fmt.Sprintf` for an integer. -/
def fmtInt (n : Int) : Str :=
  if n < 0 then '-' :: natDigits (n.natAbs + 1) n.natAbs else natDigits (n.natAbs + 1) n.natAbs

/-! ## Data model -/

/-- The struct `Metrics`; the `float64` readings are taken as exact rationals. -/
structure Metrics where
  CPUPercent : ℚ
  MemoryPercent : ℚ
  DiskPercent : ℚ
  LoadAvg : ℚ
  deriving DecidableEq

/-- The struct `LogEntry`. -/
structure LogEntry where
  Timestamp : Str
  Level : Str
  Server : Str
  Message : Str
  Metrics : Option Metrics
  deriving DecidableEq

/-- The files of the data directory: file name and content, at most one pair
per name. -/
abbrev Disk := List (Str × Str)

/-- The function `os.ReadFile`: `none` when the file does not exist. -/
def readFile : Disk → Str → Option Str
  | [], _ => none
  | (n, c) :: rest, name => if n = name then some c else readFile rest name

/-- Writing `data` to a file opened with `O_APPEND|O_CREATE|O_WRONLY`. -/
def appendFile : Disk → Str → Str → Disk
  | [], name, data => [(name, data)]
  | (n, c) :: rest, name, data =>
    if n = name then (n, c ++ data) :: rest else (n, c) :: appendFile rest name data

/-- The struct `LogStorage`.  The field `CompressionRatio` holds the two sizes
whose quotient the source stores (`none` is the zero value of a fresh store). -/
structure LogStorage where
  memoryBuffer : List LogEntry
  maxBufferSize : Int
  maxBufferMemory : Int
  flushInterval : Int
  dataDir : Str
  TotalReceived : Int
  TotalCompressed : Int
  CompressionRatio : Option (Nat × Nat)
  deriving DecidableEq

/-- What the two calls of `time.Now()` in `flushToDisk` and the one in
`queryDisk` are used for: the text of `Format("2006-01-02-15")` and the value
of `Unix()`. -/
structure Now where
  hour : Str
  unix : Int

/-- The function `NewLogStorage`, without the background task it starts. -/
def NewLogStorage (dataDir : Str) : LogStorage :=
  { memoryBuffer := []
    maxBufferSize := 1000
    maxBufferMemory := 10 * 1024 * 1024
    flushInterval := 60 * 1000000000
    dataDir := dataDir
    TotalReceived := 0
    TotalCompressed := 0
    CompressionRatio := none }

/-! ## Chunk codec -/

/-- The line `fmt.Sprintf("[%s] [%s] [%s] %s\n", ...)` that `flushToDisk`
writes for one entry. -/
def renderLine (log : LogEntry) : Str :=
  "[".toList ++ log.Timestamp ++ "] [".toList ++ log.Level ++ "] [".toList ++ log.Server ++
    "] ".toList ++ log.Message ++ "\n".toList

/-- The text `plainText` that `flushToDisk` builds from the batch. -/
def renderLines (logs : List LogEntry) : Str := (logs.map renderLine).flatten

/-- Loop of `extractBracket` over the rest of the string: `i` is the offset of
the next character, `count` and `start` are the variables of the source. -/
def extractBracketLoop (s : Str) (index : Int) : Str → Nat → Int → Int → Str
  | [], _, _, _ => []
  | c :: rest, i, count, start =>
    if c = '[' then
      extractBracketLoop s index rest (i + 1) (count + 1)
        (if count = index then (i : Int) + 1 else start)
    else if c = ']' ∧ start ≠ -1 then
      slice s start i
    else
      extractBracketLoop s index rest (i + 1) count start

/-- The function `extractBracket`. -/
def extractBracket (s : Str) (index : Int) : Str := extractBracketLoop s index s 0 0 (-1)

/-- The function `parseLogLine`. -/
def parseLogLine (line : Str) : LogEntry :=
  { Timestamp := extractBracket line 0
    Level := extractBracket line 1
    Server := extractBracket line 2
    Message := line
    Metrics := none }

/-- The name of the file of an hour, `fmt.Sprintf("%s/logs-%s.lz4", dataDir, hour)`. -/
def hourFileName (dataDir hour : Str) : Str :=
  dataDir ++ "/logs-".toList ++ hour ++ ".lz4".toList

/-- The separator line `fmt.Sprintf("===CHUNK_%d===\n", unix)`. -/
def separator (unix : Int) : Str := "===CHUNK_".toList ++ fmtInt unix ++ "===\n".toList

/-! ## Log buffer and compactor -/

/-- The method `LogStorage.Append`, run under the buffer lock.  The second
component is `true` when the call starts `go s.flushToDisk()`. -/
def LogStorage.Append (s : LogStorage) (log : LogEntry) : LogStorage × Bool :=
  let s1 := { s with memoryBuffer := s.memoryBuffer ++ [log], TotalReceived := s.TotalReceived + 1 }
  (s1, decide ((s1.memoryBuffer.length : Int) ≥ s1.maxBufferSize))

/-- The method `LogStorage.flushToDisk` as one atomic step on the store and the
data directory; the file operations, whose errors the source discards, are
taken to succeed. -/
def LogStorage.flushToDisk (lib : Lib) (now : Now) (s : LogStorage) (disk : Disk) :
    LogStorage × Disk :=
  if s.memoryBuffer.length = 0 then (s, disk)
  else
    let logsToCompress := s.memoryBuffer
    let plainText := renderLines logsToCompress
    let compressed := lib.lz4Compress plainText
    let filename := hourFileName s.dataDir now.hour
    let disk1 := appendFile (appendFile disk filename (separator now.unix)) filename compressed
    ({ s with
        memoryBuffer := []
        TotalCompressed := s.TotalCompressed + (logsToCompress.length : Int)
        CompressionRatio := some (plainText.length, compressed.length) },
      disk1)

/-! ## Log query router -/

/-- The method `LogStorage.matchLogWithFilters`. -/
def matchLogWithFilters (lib : Lib) (log : LogEntry) (keyword server level : Str) : Bool :=
  if keyword ≠ [] ∧
      ¬ (contains (toLower lib log.Message) keyword ∨
          contains (toLower lib log.Level) keyword ∨
          contains (toLower lib log.Server) keyword) then
    false
  else if server ≠ [] ∧ toLower lib log.Server ≠ server then
    false
  else if level ≠ [] ∧ toLower lib log.Level ≠ level then
    false
  else
    true

/-- The loop of `Query` over the buffer, `for i := len-1; i >= 0 && len(results) < limit; i--`;
the first argument lists the entries still to visit, newest first. -/
def scanBuffer (lib : Lib) (keyword server level : Str) (limit : Int) :
    List LogEntry → List LogEntry → List LogEntry
  | [], results => results
  | log :: rest, results =>
    if (results.length : Int) < limit then
      if matchLogWithFilters lib log keyword server level then
        scanBuffer lib keyword server level limit rest (results ++ [log])
      else
        scanBuffer lib keyword server level limit rest results
    else
      results

/-- The loop of `queryDisk` over the lines of one chunk,
`for i := len(lines)-1; i >= 0 && len(results) < limit; i--`; the first
argument lists the lines still to visit, last line first. -/
def scanLines (lib : Lib) (keyword server level : Str) (limit : Int) :
    List Str → List LogEntry → List LogEntry
  | [], results => results
  | line :: rest, results =>
    if (results.length : Int) < limit then
      if line = [] then
        scanLines lib keyword server level limit rest results
      else if matchLogWithFilters lib (parseLogLine line) keyword server level then
        scanLines lib keyword server level limit rest (results ++ [parseLogLine line])
      else
        scanLines lib keyword server level limit rest results
    else
      results

/-- The loop of `queryDisk` over the pieces of the file, `for _, chunk := range chunks`. -/
def scanChunks (lib : Lib) (keyword server level : Str) (limit : Int) :
    List Str → List LogEntry → List LogEntry
  | [], results => results
  | chunk :: rest, results =>
    if chunk.length = 0 then
      scanChunks lib keyword server level limit rest results
    else
      match indexNewline chunk with
      | none => scanChunks lib keyword server level limit rest results
      | some idx =>
        match lib.lz4Decompress (chunk.drop (idx + 1)) with
        | none => scanChunks lib keyword server level limit rest results
        | some decompressed =>
          let lines := splitOn decompressed "\n".toList
          let results1 := scanLines lib keyword server level limit lines.reverse results
          if (results1.length : Int) ≥ limit then results1
          else scanChunks lib keyword server level limit rest results1

/-- The method `LogStorage.queryDisk`. -/
def LogStorage.queryDisk (lib : Lib) (now : Now) (s : LogStorage) (disk : Disk)
    (keyword server level : Str) (limit : Int) : List LogEntry :=
  match readFile disk (hourFileName s.dataDir now.hour) with
  | none => []
  | some data =>
    scanChunks lib keyword server level limit (splitOn data "===CHUNK_".toList) []

/-- The method `LogStorage.Query`. -/
def LogStorage.Query (lib : Lib) (now : Now) (s : LogStorage) (disk : Disk)
    (keyword server level : Str) (limit : Int) : List LogEntry :=
  let keywordLower := toLower lib keyword
  let serverLower := toLower lib server
  let levelLower := toLower lib level
  let results := scanBuffer lib keywordLower serverLower levelLower limit s.memoryBuffer.reverse []
  if (results.length : Int) ≥ limit then results
  else
    results ++ s.queryDisk lib now disk keywordLower serverLower levelLower
      (limit - (results.length : Int))

/-- One step of a sequential run of the log engine. -/
inductive LogOp where
  | append (log : LogEntry)
  | flush (now : Now)

/-- The effect of one step on the store and the data directory. -/
def stepLog (lib : Lib) : LogStorage × Disk → LogOp → LogStorage × Disk
  | (s, disk), .append log => ((s.Append log).1, disk)
  | (s, disk), .flush now => s.flushToDisk lib now disk

/-- The state after a sequence of steps. -/
def runLog (lib : Lib) (st : LogStorage × Disk) (ops : List LogOp) : LogStorage × Disk :=
  ops.foldl (stepLog lib) st

/-! ## Metrics ring store and status calculator -/

/-- The struct `MetricsEntry`. -/
structure MetricsEntry where
  Timestamp : Str
  Server : Str
  Metrics : Metrics
  deriving DecidableEq

/-- The struct `ServerStatus`. -/
structure ServerStatus where
  Server : Str
  Status : Str
  LastSeen : Str
  Latest : Option Metrics
  Uptime : Str
  deriving DecidableEq

/-- A Go map with string keys: key and value, at most one pair per key. -/
abbrev GoMap (α : Type) := List (Str × α)

/-- The lookup `v, exists := m[key]`, `none` when `exists` is false. -/
def mapGet {α : Type} : GoMap α → Str → Option α
  | [], _ => none
  | (k, v) :: rest, key => if k = key then some v else mapGet rest key

/-- The assignment `m[key] = v`. -/
def mapSet {α : Type} : GoMap α → Str → α → GoMap α
  | [], key, v => [(key, v)]
  | (k, w) :: rest, key, v =>
    if k = key then (k, v) :: rest else (k, w) :: mapSet rest key v

/-- The struct `MetricsStorage`; `offlineThreshold` is a `time.Duration`, in
nanoseconds. -/
structure MetricsStorage where
  recentMetrics : GoMap (List MetricsEntry)
  serverStatus : GoMap ServerStatus
  maxPointsPerServer : Int
  offlineThreshold : Int
  dataDir : Str
  TotalMetricsReceived : Int
  ActiveServers : Int
  deriving DecidableEq

/-- A reading of `time.Now()`: the instant in nanoseconds since the Unix epoch
and the offset of the local time zone, in seconds east of UTC. -/
structure Clock where
  nanos : Int
  zoneOffset : Int

/-- The constant `time.Second`, in nanoseconds. -/
def second : Int := 1000000000

/-- The function `NewMetricsStorage`, without the background task it starts. -/
def NewMetricsStorage (dataDir : Str) (maxPoints : Int) : MetricsStorage :=
  { recentMetrics := []
    serverStatus := []
    maxPointsPerServer := maxPoints
    offlineThreshold := 90 * second
    dataDir := dataDir
    TotalMetricsReceived := 0
    ActiveServers := 0 }

/-- The text of `time.Now().Format("2006-01-02 15:04:05")`: the wall clock of
the local zone, the fraction of the second dropped. -/
def nowText (lib : Lib) (clock : Clock) : Str :=
  lib.timeFormat (clock.nanos / second + clock.zoneOffset)

/-- The method `MetricsStorage.updateServerStatus`. -/
def MetricsStorage.updateServerStatus (lib : Lib) (clock : Clock) (m : MetricsStorage)
    (server : Str) (entry : MetricsEntry) : MetricsStorage :=
  let now := nowText lib clock
  match mapGet m.serverStatus server with
  | some status =>
    let status1 : ServerStatus := { status with LastSeen := now, Latest := some entry.Metrics }
    { m with serverStatus := mapSet m.serverStatus server status1 }
  | none =>
    let status1 : ServerStatus :=
      { Server := server, Status := "online".toList, LastSeen := now,
        Latest := some entry.Metrics, Uptime := [] }
    { m with serverStatus := mapSet m.serverStatus server status1 }

/-- The method `MetricsStorage.Append`.  The result is `none` when the call
panics: `make` with a negative capacity, for a host that has no sequence yet. -/
def MetricsStorage.Append (lib : Lib) (clock : Clock) (m : MetricsStorage)
    (entry : MetricsEntry) : Option MetricsStorage :=
  let server := entry.Server
  if server = [] then some m
  else
    match mapGet m.recentMetrics server with
    | none =>
      if m.maxPointsPerServer < 0 then none
      else
        let entries : List MetricsEntry := [] ++ [entry]
        let entries1 :=
          if (entries.length : Int) > m.maxPointsPerServer then entries.drop 1 else entries
        let m1 := { m with
          recentMetrics := mapSet m.recentMetrics server entries1
          TotalMetricsReceived := m.TotalMetricsReceived + 1 }
        some (m1.updateServerStatus lib clock server entry)
    | some old =>
      let entries := old ++ [entry]
      let entries1 :=
        if (entries.length : Int) > m.maxPointsPerServer then entries.drop 1 else entries
      let m1 := { m with
        recentMetrics := mapSet m.recentMetrics server entries1
        TotalMetricsReceived := m.TotalMetricsReceived + 1 }
      some (m1.updateServerStatus lib clock server entry)

/-- A sequence of `Append` calls, each with the clock reading of its call;
`none` as soon as one call panics. -/
def appendAll (lib : Lib) : MetricsStorage → List (Clock × MetricsEntry) → Option MetricsStorage
  | m, [] => some m
  | m, (clock, entry) :: rest =>
    match m.Append lib clock entry with
    | none => none
    | some m1 => appendAll lib m1 rest

/-- The sequence stored for a host, empty when the host has none. -/
def storedFor (m : MetricsStorage) (server : Str) : List MetricsEntry :=
  (mapGet m.recentMetrics server).getD []

/-- The value of `Time.Sub`: the difference of two instants in nanoseconds,
saturated to the range of `time.Duration`. -/
def durationSub (t u : Int) : Int :=
  if t - u > 9223372036854775807 then 9223372036854775807
  else if t - u < -9223372036854775808 then -9223372036854775808
  else t - u

/-- The value of `time.Since(lastSeen)`, for a `lastSeen` parsed without a
zone, hence read as UTC, from a wall clock reading of `wall` seconds. -/
def since (clock : Clock) (wall : Int) : Int := durationSub clock.nanos (wall * second)

/-- The method `MetricsStorage.calculateServerStatus`. -/
def MetricsStorage.calculateServerStatus (lib : Lib) (clock : Clock) (m : MetricsStorage)
    (server : Str) : Str :=
  match mapGet m.serverStatus server with
  | none => "unknown".toList
  | some status =>
    match lib.timeParse status.LastSeen with
    | none => "unknown".toList
    | some lastSeen =>
      let elapsed := since clock lastSeen
      if elapsed > m.offlineThreshold then "offline".toList
      else if elapsed > 60 * second then "timeout".toList
      else "online".toList

/-- The method `MetricsStorage.Query`.  With an empty `server` the map is
walked in the order of the list, which stands for the iteration order of the
Go map.  The result is `none` when the call panics: `make` with a negative
length. -/
def MetricsStorage.Query (m : MetricsStorage) (server _metricName : Str) (limit : Int) :
    Option (List MetricsEntry) :=
  if server = [] then
    some (m.recentMetrics.filterMap (fun p => p.2.getLast?))
  else
    match mapGet m.recentMetrics server with
    | none => some []
    | some entries =>
      if entries.length = 0 then some []
      else
        let start : Int :=
          if (entries.length : Int) > limit then (entries.length : Int) - limit else 0
        if (entries.length : Int) - start < 0 then none
        else some (entries.drop start.toNat)

/-- The strict order `<` of Go on strings: lexicographic on the characters. -/
def strLt : Str → Str → Bool
  | _, [] => false
  | [], _ :: _ => true
  | a :: as, b :: bs => if a < b then true else if b < a then false else strLt as bs

/-- Insertion of a record before the first record with a greater server name. -/
def insertByServer (x : ServerStatus) : List ServerStatus → List ServerStatus
  | [] => [x]
  | y :: ys => if strLt x.Server y.Server then x :: y :: ys else y :: insertByServer x ys

/-- The call `sort.Slice(result, func(i, j) { result[i].Server < result[j].Server })`,
as an insertion sort.  The records come from a map keyed by server name, so no
two of them compare equal and every sorting algorithm returns the same list. -/
def sortByServer : List ServerStatus → List ServerStatus
  | [] => []
  | x :: xs => insertByServer x (sortByServer xs)

/-- The method `MetricsStorage.GetServerStatus`; the clock readings of the
calls of `calculateServerStatus` within one read are taken at one instant. -/
def MetricsStorage.GetServerStatus (lib : Lib) (clock : Clock) (m : MetricsStorage) :
    List ServerStatus :=
  sortByServer (m.serverStatus.map (fun p =>
    { p.2 with Status := m.calculateServerStatus lib clock p.1 }))

/-- The variables of the loop of `GetAggregatedStats`. -/
structure AggState where
  sumCPU : ℚ
  sumMemory : ℚ
  sumDisk : ℚ
  sumLoad : ℚ
  maxCPU : ℚ
  maxMemory : ℚ
  minCPU : ℚ
  minMemory : ℚ
  deriving DecidableEq

/-- The body of the loop of `GetAggregatedStats` for one entry. -/
def aggStep (a : AggState) (entry : MetricsEntry) : AggState :=
  { sumCPU := a.sumCPU + entry.Metrics.CPUPercent
    sumMemory := a.sumMemory + entry.Metrics.MemoryPercent
    sumDisk := a.sumDisk + entry.Metrics.DiskPercent
    sumLoad := a.sumLoad + entry.Metrics.LoadAvg
    maxCPU := if entry.Metrics.CPUPercent > a.maxCPU then entry.Metrics.CPUPercent else a.maxCPU
    minCPU := if entry.Metrics.CPUPercent < a.minCPU then entry.Metrics.CPUPercent else a.minCPU
    maxMemory :=
      if entry.Metrics.MemoryPercent > a.maxMemory then entry.Metrics.MemoryPercent
      else a.maxMemory
    minMemory :=
      if entry.Metrics.MemoryPercent < a.minMemory then entry.Metrics.MemoryPercent
      else a.minMemory }

/-- The map returned by `GetAggregatedStats`, one field per key. -/
structure AggregatedStats where
  server : Str
  latest : Metrics
  avgCPU : ℚ
  avgMemory : ℚ
  avgDisk : ℚ
  avgLoad : ℚ
  maxCPU : ℚ
  maxMemory : ℚ
  minCPU : ℚ
  minMemory : ℚ
  samples : Int
  deriving DecidableEq

/-- The method `MetricsStorage.GetAggregatedStats`, `none` for the result `nil`. -/
def MetricsStorage.GetAggregatedStats (m : MetricsStorage) (server : Str) :
    Option AggregatedStats :=
  match mapGet m.recentMetrics server with
  | none => none
  | some [] => none
  | some (first :: rest) =>
    let entries := first :: rest
    let a := entries.foldl aggStep
      { sumCPU := 0, sumMemory := 0, sumDisk := 0, sumLoad := 0
        maxCPU := first.Metrics.CPUPercent, minCPU := first.Metrics.CPUPercent
        maxMemory := first.Metrics.MemoryPercent, minMemory := first.Metrics.MemoryPercent }
    let count : ℚ := (entries.length : ℚ)
    some
      { server := server
        latest := (entries.getLastD first).Metrics
        avgCPU := a.sumCPU / count
        avgMemory := a.sumMemory / count
        avgDisk := a.sumDisk / count
        avgLoad := a.sumLoad / count
        maxCPU := a.maxCPU
        maxMemory := a.maxMemory
        minCPU := a.minCPU
        minMemory := a.minMemory
        samples := (entries.length : Int) }

/-- The map returned by `MetricsStorage.GetStats`, one field per key. -/
structure MetricsStats where
  total_metrics_received : Int
  active_servers : Int
  total_servers : Int
  deriving DecidableEq

/-- The method `MetricsStorage.GetStats`: the store, whose field `ActiveServers`
it assigns, and the returned map.  The count does not depend on the order in
which the records are visited. -/
def MetricsStorage.GetStats (m : MetricsStorage) : MetricsStorage × MetricsStats :=
  let activeCount : Int :=
    ((m.serverStatus.filter (fun p => decide (p.2.Status = "online".toList))).length : Int)
  let m1 := { m with ActiveServers := activeCount }
  (m1,
    { total_metrics_received := m1.TotalMetricsReceived
      active_servers := m1.ActiveServers
      total_servers := (m.serverStatus.length : Int) })

/-- One call on the metrics engine. -/
inductive MetricsOp where
  | append (clock : Clock) (entry : MetricsEntry)
  | getServerStatus (clock : Clock)
  | getStats

/-- The effect of one call on the store; `none` when the call panics.
`GetServerStatus` works on copies of the records and leaves the store as it
is. -/
def stepMetrics (lib : Lib) (m : MetricsStorage) : MetricsOp → Option MetricsStorage
  | .append clock entry => m.Append lib clock entry
  | .getServerStatus _ => some m
  | .getStats => some m.GetStats.1

/-- The store after a sequence of calls; `none` as soon as one call panics. -/
def runMetrics (lib : Lib) : MetricsStorage → List MetricsOp → Option MetricsStorage
  | m, [] => some m
  | m, op :: rest =>
    match stepMetrics lib m op with
    | none => none
    | some m1 => runMetrics lib m1 rest

/-! ## Library functions for concrete evaluation -/

/-- The value of a decimal numeral, `none` when a character is not a digit;
`acc` is the value of the digits already read. -/
def parseDigits : Str → Nat → Option Nat
  | [], acc => some acc
  | c :: rest, acc =>
    if 48 ≤ c.toNat ∧ c.toNat ≤ 57 then parseDigits rest (acc * 10 + (c.toNat - 48)) else none

/-- Reads back the text written by `fmtInt`. -/
def parseInt : Str → Option Int
  | [] => none
  | '-' :: rest => if rest = [] then none else (parseDigits rest 0).map (fun n => - (n : Int))
  | s => (parseDigits s 0).map (fun n => (n : Int))

/-- Library functions used to evaluate the code on concrete inputs: ASCII
lower-casing, a compressor that stores its input unchanged, and a clock text
that is the decimal number of seconds. -/
def plainLib : Lib :=
  { toLowerRune := Char.toLower
    lz4Compress := fun x => x
    lz4Decompress := fun x => some x
    timeFormat := fmtInt
    timeParse := parseInt }

/-! ## Vocabulary of the statements -/

/-- The verdict of the filter on an entry, as a predicate on entries. -/
def accepts (lib : Lib) (keyword server level : Str) (log : LogEntry) : Bool :=
  matchLogWithFilters lib log keyword server level

/-- The non-empty lines that one piece of the hour file contributes, in the
order in which `queryDisk` visits them (last line first); a piece that is
skipped (empty, without newline, or not decompressible) contributes none. -/
def pieceLines (lib : Lib) (chunk : Str) : List Str :=
  if chunk.length = 0 then []
  else
    match indexNewline chunk with
    | none => []
    | some idx =>
      match lib.lz4Decompress (chunk.drop (idx + 1)) with
      | none => []
      | some decompressed =>
        (splitOn decompressed "\n".toList).reverse.filter (fun l => decide (l ≠ []))

/-- The non-empty decoded lines of the current hour's file, in the order in
which `queryDisk` visits them; none when the file cannot be read. -/
def diskLines (lib : Lib) (now : Now) (s : LogStorage) (disk : Disk) : List Str :=
  match readFile disk (hourFileName s.dataDir now.hour) with
  | none => []
  | some data => (splitOn data "===CHUNK_".toList).flatMap (pieceLines lib)

/-- Decoding of the text of one chunk as `queryDisk` does it, in file order and
without filter: split on newlines, drop the empty lines, parse each line. -/
def decodeText (text : Str) : List LogEntry :=
  ((splitOn text "\n".toList).filter (fun l => decide (l ≠ []))).map parseLogLine

/-- The entries appended by a sequence of steps, in append order. -/
def appendedEntries : List LogOp → List LogEntry
  | [] => []
  | .append log :: ops => log :: appendedEntries ops
  | .flush _ :: ops => appendedEntries ops

/-- The data directory after one chunk holding the batch `b.2` was written at
time `b.1`. -/
def writeBatch (lib : Lib) (dataDir : Str) (disk : Disk) (b : Now × List LogEntry) : Disk :=
  appendFile (appendFile disk (hourFileName dataDir b.1.hour) (separator b.1.unix))
    (hourFileName dataDir b.1.hour) (lib.lz4Compress (renderLines b.2))

/-- The data directory after the chunks of `batches` were written, one after
the other. -/
def writeBatches (lib : Lib) (dataDir : Str) (disk : Disk) (batches : List (Now × List LogEntry)) :
    Disk :=
  batches.foldl (writeBatch lib dataDir) disk

/-- The last `k` elements of a list (the whole list when it is shorter). -/
def lastN {α : Type} (k : Nat) (l : List α) : List α := l.drop (l.length - k)

/-- The entries of a sequence of `Append` calls whose server is `server`. -/
def entriesFor (server : Str) (calls : List (Clock × MetricsEntry)) : List MetricsEntry :=
  (calls.map (fun c => c.2)).filter (fun e => decide (e.Server = server))

/-- What the sliding window holds for a host after the calls `calls`: no
sequence for the empty name or for a host without entry, else the last
`maxPoints` entries of the host. -/
def expectedWindow (maxPoints : Int) (calls : List (Clock × MetricsEntry)) (server : Str) :
    Option (List MetricsEntry) :=
  if server = [] ∨ entriesFor server calls = [] then none
  else some (lastN maxPoints.toNat (entriesFor server calls))

/-- The running maximum of the loop of `GetAggregatedStats`. -/
def runMax (l : List ℚ) (m0 : ℚ) : ℚ := l.foldl (fun m x => if x > m then x else m) m0

/-- The running minimum of the loop of `GetAggregatedStats`. -/
def runMin (l : List ℚ) (m0 : ℚ) : ℚ := l.foldl (fun m x => if x < m then x else m) m0

/-- A sequence of `Append` calls with no other step in between: the final store
and, call by call, whether the call requested a compaction. -/
def appendMany (s : LogStorage) : List LogEntry → LogStorage × List Bool
  | [] => (s, [])
  | log :: rest =>
    ((appendMany (s.Append log).1 rest).1, (s.Append log).2 :: (appendMany (s.Append log).1 rest).2)

/-- The line of an entry in a chunk, `[timestamp] [level] [server] message`,
without the newline that ends it. -/
def headerLine (timestamp level server message : Str) : Str :=
  '[' :: (timestamp ++ ']' :: ' ' :: '[' :: (level ++ ']' :: ' ' :: '[' ::
    (server ++ ']' :: ' ' :: message)))

/-- The payload that `queryDisk` takes from one piece of the hour file: what
follows the first newline; `none` for a piece that is skipped. -/
def chunkPayload (chunk : Str) : Option Str :=
  if chunk.length = 0 then none
  else
    match indexNewline chunk with
    | none => none
    | some idx => some (chunk.drop (idx + 1))

/-- The payloads that `queryDisk` takes from the hour file, in file order. -/
def filePayloads (data : Str) : List Str :=
  (splitOn data "===CHUNK_".toList).filterMap chunkPayload

/-- The file that `flushToDisk` builds by writing, chunk after chunk, the
separator line with the stamp and then the payload. -/
def frameFile (chunks : List (Int × Str)) : Str :=
  (chunks.map (fun c => separator c.1 ++ c.2)).flatten

/-- The status table after the calls `calls` of `Append`, as a Go map keyed by
server name: no key twice, every record under the key that is its `Server`,
and the keys are the non-empty server names of the calls. -/
def statusTableOk (m : MetricsStorage) (calls : List (Clock × MetricsEntry)) : Prop :=
  (m.serverStatus.map Prod.fst).Nodup ∧
  (∀ p ∈ m.serverStatus, p.2.Server = p.1) ∧
  ∀ h : Str, h ∈ m.serverStatus.map Prod.fst ↔ h ≠ [] ∧ ∃ c ∈ calls, c.2.Server = h

/-! ## Concrete inputs -/

/-- A log entry of host `web1`. -/
def sampleEntry : LogEntry :=
  { Timestamp := "2024-05-01 10:00:00".toList
    Level := "INFO".toList
    Server := "web1".toList
    Message := "service started".toList
    Metrics := none }

/-- A log entry of host `db1`, ingested after `sampleEntry`. -/
def laterEntry : LogEntry :=
  { Timestamp := "2024-05-01 10:00:30".toList
    Level := "WARN".toList
    Server := "db1".toList
    Message := "slow query".toList
    Metrics := none }

/-- A clock reading within the hour of the two sample entries. -/
def sampleNow : Now := { hour := "2024-05-01-10".toList, unix := 1714557600 }

/-- The store and data directory after `sampleEntry` was appended and flushed,
`laterEntry` was appended and flushed, all within one hour. -/
def twoChunks : LogStorage × Disk :=
  runLog plainLib (NewLogStorage "data".toList, [])
    [.append sampleEntry, .flush sampleNow, .append laterEntry, .flush sampleNow]

/-- The store and data directory after `sampleEntry` was appended and flushed
and `laterEntry` was appended. -/
def oneChunkOneBuffered : LogStorage × Disk :=
  runLog plainLib (NewLogStorage "data".toList, [])
    [.append sampleEntry, .flush sampleNow, .append laterEntry]

/-- A sample of host `web1` with the given CPU reading. -/
def webSample (cpu : ℚ) : MetricsEntry :=
  { Timestamp := "2024-05-01 10:00:00".toList
    Server := "web1".toList
    Metrics := { CPUPercent := cpu, MemoryPercent := 40, DiskPercent := 70, LoadAvg := 1 } }

/-- Three `Append` calls for `web1`, thirty seconds apart, in a process whose
local zone is UTC. -/
def sampleCalls : List (Clock × MetricsEntry) :=
  [({ nanos := 1714557600 * second, zoneOffset := 0 }, webSample 10),
   ({ nanos := 1714557630 * second, zoneOffset := 0 }, webSample 50),
   ({ nanos := 1714557660 * second, zoneOffset := 0 }, webSample 90)]

/-- The store after `sampleCalls`, with the capacity 120 that `main` passes. -/
def sampleMetrics : MetricsStorage :=
  (appendAll plainLib (NewMetricsStorage "data".toList 120) sampleCalls).getD
    (NewMetricsStorage "data".toList 120)

/-- The status record of `web1` in `sampleMetrics`. -/
def webStatus : ServerStatus :=
  { Server := "web1".toList
    Status := "online".toList
    LastSeen := "1714557660".toList
    Latest := some (webSample 90).Metrics
    Uptime := [] }

/-- A clock reading in a process whose local zone is eight hours east of UTC. -/
def eastClock : Clock := { nanos := 1714557600 * second, zoneOffset := 28800 }

/-- The store after one `Append` for `web1` at `eastClock`. -/
def eastMetrics : MetricsStorage :=
  ((NewMetricsStorage "data".toList 120).Append plainLib eastClock (webSample 10)).getD
    (NewMetricsStorage "data".toList 120)

/-- The two chunks of `twoChunks`: stamp and text. -/
def sampleChunks : List (Int × Str) :=
  [(sampleNow.unix, renderLines [sampleEntry]), (sampleNow.unix, renderLines [laterEntry])]

/-- Two hosts appended in the order `web1`, `db1`, `web1`. -/
def sampleTwoHosts : List (Clock × MetricsEntry) :=
  [({ nanos := 1714557600 * second, zoneOffset := 0 }, webSample 10),
   ({ nanos := 1714557630 * second, zoneOffset := 0 }, { webSample 20 with Server := "db1".toList }),
   ({ nanos := 1714557660 * second, zoneOffset := 0 }, webSample 90)]

/-- The store after `sampleTwoHosts`. -/
def sampleTwoHostsStore : MetricsStorage :=
  (appendAll plainLib (NewMetricsStorage "data".toList 120) sampleTwoHosts).getD
    (NewMetricsStorage "data".toList 120)

/-- One sample of `web1`, then a status read and a statistics read more than
sixteen minutes later. -/
def sampleOps : List MetricsOp :=
  [.append { nanos := 1714557600 * second, zoneOffset := 0 } (webSample 10),
   .getServerStatus { nanos := 1714558600 * second, zoneOffset := 0 },
   .getStats]

/-- The store after `sampleOps`. -/
def sampleOpsStore : MetricsStorage :=
  (runMetrics plainLib (NewMetricsStorage "data".toList 120) sampleOps).getD
    (NewMetricsStorage "data".toList 120)

/-! ## The scan loops in closed form -/

/-- Taking from a non-empty list while the quota is not exhausted. -/
theorem take_succ_toNat {α : Type} (limit : Int) (n : Nat) (h : (n : Int) < limit) (x : α)
    (xs : List α) :
    (x :: xs).take (limit - (n : Int)).toNat = x :: xs.take (limit - ((n + 1 : Nat) : Int)).toNat := by
  have h1 : (limit - (n : Int)).toNat = (limit - ((n + 1 : Nat) : Int)).toNat + 1 := by omega
  rw [h1, List.take_succ_cons]

/-- Nothing is taken once the quota is exhausted. -/
theorem take_toNat_of_le {α : Type} (limit : Int) (n : Nat) (h : ¬ (n : Int) < limit)
    (xs : List α) : xs.take (limit - (n : Int)).toNat = [] := by
  have h1 : (limit - (n : Int)).toNat = 0 := by omega
  rw [h1, List.take_zero]

/-- The buffer loop appends to `results` the accepted entries, as many as the quota
`limit - len(results)` allows. -/
theorem scanBuffer_eq (lib : Lib) (keyword server level : Str) (limit : Int)
    (logs results : List LogEntry) :
    scanBuffer lib keyword server level limit logs results =
      results ++ (logs.filter (accepts lib keyword server level)).take
        (limit - (results.length : Int)).toNat := by
  induction logs generalizing results with
  | nil => simp [scanBuffer]
  | cons log rest ih =>
    by_cases hlt : (results.length : Int) < limit
    · by_cases hm : matchLogWithFilters lib log keyword server level = true
      · rw [scanBuffer, if_pos hlt, if_pos hm, ih, List.filter_cons_of_pos (by simpa [accepts] using hm),
          take_succ_toNat limit _ hlt]
        simp
      · rw [scanBuffer, if_pos hlt, if_neg hm, ih, List.filter_cons_of_neg (by simpa [accepts] using hm)]
    · rw [scanBuffer, if_neg hlt, take_toNat_of_le limit _ hlt]
      simp

/-- The line loop appends to `results` the accepted parsed non-empty lines, as many
as the quota allows. -/
theorem scanLines_eq (lib : Lib) (keyword server level : Str) (limit : Int)
    (lines : List Str) (results : List LogEntry) :
    scanLines lib keyword server level limit lines results =
      results ++ (((lines.filter (fun l => decide (l ≠ []))).map parseLogLine).filter
        (accepts lib keyword server level)).take (limit - (results.length : Int)).toNat := by
  induction lines generalizing results with
  | nil => simp [scanLines]
  | cons line rest ih =>
    by_cases hlt : (results.length : Int) < limit
    · by_cases he : line = []
      · rw [scanLines, if_pos hlt, if_pos he, ih, List.filter_cons_of_neg (by simp [he])]
      · by_cases hm : matchLogWithFilters lib (parseLogLine line) keyword server level = true
        · rw [scanLines, if_pos hlt, if_neg he, if_pos hm, ih,
            List.filter_cons_of_pos (by simp [he]), List.map_cons,
            List.filter_cons_of_pos (by simpa [accepts] using hm), take_succ_toNat limit _ hlt]
          simp
        · rw [scanLines, if_pos hlt, if_neg he, if_neg hm, ih,
            List.filter_cons_of_pos (by simp [he]), List.map_cons,
            List.filter_cons_of_neg (by simpa [accepts] using hm)]
    · rw [scanLines, if_neg hlt, take_toNat_of_le limit _ hlt]
      simp

/-- Scanning a first source and then, if the quota is not filled, a second one is
scanning their concatenation. -/
theorem take_budget_append {α : Type} (limit : Int) (acc A B : List α) :
    (if ((acc ++ A.take (limit - (acc.length : Int)).toNat).length : Int) ≥ limit then
        acc ++ A.take (limit - (acc.length : Int)).toNat
      else
        (acc ++ A.take (limit - (acc.length : Int)).toNat) ++
          B.take (limit - ((acc ++ A.take (limit - (acc.length : Int)).toNat).length : Int)).toNat) =
      acc ++ (A ++ B).take (limit - (acc.length : Int)).toNat := by
  rw [List.take_append_eq_append_take]
  have hlen : (acc ++ A.take (limit - (acc.length : Int)).toNat).length =
      acc.length + min (limit - (acc.length : Int)).toNat A.length := by
    simp [List.length_take]
  split
  · next h =>
    rw [hlen] at h
    have h0 : (limit - (acc.length : Int)).toNat - A.length = 0 := by omega
    rw [h0]
    simp
  · next h =>
    have hA : A.length ≤ (limit - (acc.length : Int)).toNat := by
      rw [hlen] at h
      omega
    have h1 : (limit - ((acc ++ A.take (limit - (acc.length : Int)).toNat).length : Int)).toNat =
        (limit - (acc.length : Int)).toNat - A.length := by
      rw [hlen]
      omega
    rw [h1]
    simp

/-- The chunk loop appends to `results` the accepted parsed lines of all pieces, as
many as the quota allows. -/
theorem scanChunks_eq (lib : Lib) (keyword server level : Str) (limit : Int)
    (chunks : List Str) (results : List LogEntry) :
    scanChunks lib keyword server level limit chunks results =
      results ++ (((chunks.flatMap (pieceLines lib)).map parseLogLine).filter
        (accepts lib keyword server level)).take (limit - (results.length : Int)).toNat := by
  induction chunks generalizing results with
  | nil => simp [scanChunks]
  | cons chunk rest ih =>
    rw [scanChunks, List.flatMap_cons, List.map_append, List.filter_append]
    by_cases h0 : chunk.length = 0
    · rw [if_pos h0, ih]
      simp [pieceLines, h0]
    · rw [if_neg h0]
      cases hidx : indexNewline chunk with
      | none =>
        simp only []
        rw [ih]
        simp [pieceLines, h0, hidx]
      | some idx =>
        simp only []
        cases hdec : lib.lz4Decompress (chunk.drop (idx + 1)) with
        | none =>
          simp only []
          rw [ih]
          simp [pieceLines, h0, hidx, hdec]
        | some decompressed =>
          simp only []
          have hp : pieceLines lib chunk =
              (splitOn decompressed "\n".toList).reverse.filter (fun l => decide (l ≠ [])) := by
            simp [pieceLines, h0, hidx, hdec]
          rw [scanLines_eq, ← hp, ih]
          exact take_budget_append limit results _ _

/-- The result of `Query`: the first `limit` accepted entries of the reversed buffer
followed by the parsed lines of the hour file. -/
theorem Query_eq (lib : Lib) (now : Now) (s : LogStorage) (disk : Disk)
    (keyword server level : Str) (limit : Int) :
    s.Query lib now disk keyword server level limit =
      ((s.memoryBuffer.reverse ++ (diskLines lib now s disk).map parseLogLine).filter
        (accepts lib (toLower lib keyword) (toLower lib server) (toLower lib level))).take
        limit.toNat := by
  have hq : ∀ lim : Int, s.queryDisk lib now disk (toLower lib keyword) (toLower lib server)
      (toLower lib level) lim =
      (((diskLines lib now s disk).map parseLogLine).filter
        (accepts lib (toLower lib keyword) (toLower lib server) (toLower lib level))).take
        lim.toNat := by
    intro lim
    unfold LogStorage.queryDisk diskLines
    cases readFile disk (hourFileName s.dataDir now.hour) with
    | none => simp
    | some data => simp [scanChunks_eq]
  unfold LogStorage.Query
  simp only [scanBuffer_eq, hq]
  have h := take_budget_append limit []
    (s.memoryBuffer.reverse.filter
      (accepts lib (toLower lib keyword) (toLower lib server) (toLower lib level)))
    (((diskLines lib now s disk).map parseLogLine).filter
      (accepts lib (toLower lib keyword) (toLower lib server) (toLower lib level)))
  simpa using h

/-! ## Chunk codec and tiered query: the claims -/

/-- C1, evaluated on the batch `[sampleEntry]`: the line written by
`flushToDisk`, stored by a lossless compressor, is decoded into one entry whose
timestamp, level and server are the original ones but whose message is the
whole line, header included; the decoded batch is not the original batch. -/
theorem roundtrip_message_is_whole_line :
    decodeText (plainLib.lz4Compress (renderLines [sampleEntry])) =
      [{ sampleEntry with
          Message := "[2024-05-01 10:00:00] [INFO] [web1] service started".toList }] ∧
    decodeText (plainLib.lz4Compress (renderLines [sampleEntry])) ≠ [sampleEntry] := by
  decide

/-- C2, evaluated after two flushes within one hour: `sampleEntry` was appended
and flushed first, `laterEntry` second, and `Query` without filters returns the
entry of the older chunk before the entry of the newer chunk; with `limit = 1`
it returns the oldest entry only. -/
theorem query_visits_oldest_chunk_first :
    (twoChunks.1.Query plainLib sampleNow twoChunks.2 [] [] [] 10).map (fun e => e.Timestamp) =
      [sampleEntry.Timestamp, laterEntry.Timestamp] ∧
    (twoChunks.1.Query plainLib sampleNow twoChunks.2 [] [] [] 1).map (fun e => e.Timestamp) =
      [sampleEntry.Timestamp] := by
  decide

/-- C3: with a non-empty server filter `X`, every entry returned by `Query`,
from the buffer or from the hour file, has a server whose lower-cased form is
the lower-cased form of `X`. -/
theorem query_server_filter (lib : Lib) (now : Now) (s : LogStorage) (disk : Disk)
    (keyword X level : Str) (limit : Int) (hX : X ≠ []) :
    ∀ e ∈ s.Query lib now disk keyword X level limit,
      toLower lib e.Server = toLower lib X := by
  intro e he
  rw [Query_eq] at he
  have hmem := (List.mem_filter.mp (List.mem_of_mem_take he)).2
  have hX1 : toLower lib X ≠ [] := by
    simpa [toLower] using hX
  simp only [accepts, matchLogWithFilters] at hmem
  by_contra hne
  simp [hX1, hne] at hmem

/-- Instance of C3: the filter `WEB1` on a store with one entry on disk and one
in the buffer; the query returns the entry of `web1`. -/
theorem query_server_filter_witness :
    "WEB1".toList ≠ [] ∧
    oneChunkOneBuffered.1.Query plainLib sampleNow oneChunkOneBuffered.2 [] "WEB1".toList [] 10 ≠ [] ∧
    ∀ e ∈ oneChunkOneBuffered.1.Query plainLib sampleNow oneChunkOneBuffered.2 []
        "WEB1".toList [] 10,
      toLower plainLib e.Server = toLower plainLib "WEB1".toList :=
  ⟨by decide, by decide,
    query_server_filter plainLib sampleNow oneChunkOneBuffered.1 oneChunkOneBuffered.2 []
      "WEB1".toList [] 10 (by decide)⟩

/-- C4: the filter accepts an entry exactly when the keyword, the server and
the level condition all hold, an empty filter value holding for every entry;
three empty filters accept every entry; the verdict is the conjunction of the
three verdicts with one filter each. -/
theorem matchLogWithFilters_is_conjunction (lib : Lib) (e : LogEntry) (k s l : Str) :
    (matchLogWithFilters lib e k s l = true ↔
      (k = [] ∨ k <:+: toLower lib e.Message ∨ k <:+: toLower lib e.Level ∨
        k <:+: toLower lib e.Server) ∧
      (s = [] ∨ toLower lib e.Server = s) ∧
      (l = [] ∨ toLower lib e.Level = l)) ∧
    matchLogWithFilters lib e [] [] [] = true ∧
    matchLogWithFilters lib e k s l =
      (matchLogWithFilters lib e k [] [] && matchLogWithFilters lib e [] s [] &&
        matchLogWithFilters lib e [] [] l) := by
  refine ⟨?_, ?_, ?_⟩
  · simp only [matchLogWithFilters, contains]
    by_cases hk : k = [] <;> by_cases hs : s = [] <;> by_cases hl : l = [] <;>
      simp [hk, hs, hl]
  · simp [matchLogWithFilters]
  · simp only [matchLogWithFilters, contains]
    by_cases hk : k = [] <;> by_cases hs : s = [] <;> by_cases hl : l = [] <;>
      simp [hk, hs, hl, Bool.and_assoc]

/-- C5: when the current hour's file cannot be read, `Query` returns the first
`limit` entries of the reversed buffer that the filter accepts on the
lower-cased filter values (for a negative `limit`, none).  `Query` returns
nothing but this list: the store is an argument that it only reads. -/
theorem query_memory_tier (lib : Lib) (now : Now) (s : LogStorage) (disk : Disk)
    (keyword server level : Str) (limit : Int)
    (hfile : readFile disk (hourFileName s.dataDir now.hour) = none) :
    s.Query lib now disk keyword server level limit =
      (s.memoryBuffer.reverse.filter (fun e =>
        matchLogWithFilters lib e (toLower lib keyword) (toLower lib server)
          (toLower lib level))).take limit.toNat := by
  rw [Query_eq]
  have hd : diskLines lib now s disk = [] := by
    simp [diskLines, hfile]
  rw [hd]
  simp only [List.map_nil, List.append_nil]
  rfl

/-- Instance of C5: two buffered entries, no file, `limit = 1`; the query
returns the newer entry. -/
theorem query_memory_tier_witness :
    readFile [] (hourFileName ((NewLogStorage "data".toList).Append sampleEntry).1.dataDir
      sampleNow.hour) = none ∧
    ((((NewLogStorage "data".toList).Append sampleEntry).1.Append laterEntry).1.Query plainLib
      sampleNow [] [] [] [] 1) = [laterEntry] :=
  ⟨by decide,
    (query_memory_tier plainLib sampleNow
      (((NewLogStorage "data".toList).Append sampleEntry).1.Append laterEntry).1 [] [] [] [] 1
      (by decide)).trans (by decide)⟩

/-- C6: for `limit ≥ 0` the number of entries `Query` returns is
`min(limit, m + d)`, with `m` the number of buffer entries the filter accepts
and `d` the number of non-empty decoded lines of the hour file whose parsed
entry the filter accepts; it is at most `limit`; when `m < limit` the result is
the accepted buffer entries followed by `queryDisk` called with the quota
`limit - m`, and when `m ≥ limit` it is taken from the buffer alone. -/
theorem query_length (lib : Lib) (now : Now) (s : LogStorage) (disk : Disk)
    (keyword server level : Str) (limit : Int) (hlimit : 0 ≤ limit) :
    ((s.Query lib now disk keyword server level limit).length : Int) =
      min limit
        (((s.memoryBuffer.filter
            (accepts lib (toLower lib keyword) (toLower lib server) (toLower lib level))).length : Int) +
          (((diskLines lib now s disk).filter (fun line =>
            accepts lib (toLower lib keyword) (toLower lib server) (toLower lib level)
              (parseLogLine line))).length : Int)) ∧
    ((s.Query lib now disk keyword server level limit).length : Int) ≤ limit ∧
    (((s.memoryBuffer.filter
          (accepts lib (toLower lib keyword) (toLower lib server) (toLower lib level))).length : Int) <
        limit →
      s.Query lib now disk keyword server level limit =
        s.memoryBuffer.reverse.filter
            (accepts lib (toLower lib keyword) (toLower lib server) (toLower lib level)) ++
          s.queryDisk lib now disk (toLower lib keyword) (toLower lib server) (toLower lib level)
            (limit - ((s.memoryBuffer.filter
              (accepts lib (toLower lib keyword) (toLower lib server)
                (toLower lib level))).length : Int))) ∧
    (limit ≤ ((s.memoryBuffer.filter
          (accepts lib (toLower lib keyword) (toLower lib server) (toLower lib level))).length : Int) →
      s.Query lib now disk keyword server level limit =
        (s.memoryBuffer.reverse.filter
          (accepts lib (toLower lib keyword) (toLower lib server) (toLower lib level))).take
          limit.toNat) := by
  have hrev : (s.memoryBuffer.reverse.filter
      (accepts lib (toLower lib keyword) (toLower lib server) (toLower lib level))).length =
      (s.memoryBuffer.filter
        (accepts lib (toLower lib keyword) (toLower lib server) (toLower lib level))).length := by
    rw [List.filter_reverse, List.length_reverse]
  have hlen : (s.Query lib now disk keyword server level limit).length =
      min limit.toNat
        ((s.memoryBuffer.filter
            (accepts lib (toLower lib keyword) (toLower lib server) (toLower lib level))).length +
          ((diskLines lib now s disk).filter (fun line =>
            accepts lib (toLower lib keyword) (toLower lib server) (toLower lib level)
              (parseLogLine line))).length) := by
    rw [Query_eq, List.length_take, List.filter_append, List.length_append, hrev,
      List.filter_map, List.length_map]
    rfl
  refine ⟨by omega, by omega, ?_, ?_⟩
  · intro hm
    unfold LogStorage.Query
    simp only [scanBuffer_eq, List.length_nil, Nat.cast_zero, sub_zero, List.nil_append]
    have htake : (s.memoryBuffer.reverse.filter
        (accepts lib (toLower lib keyword) (toLower lib server) (toLower lib level))).take
        limit.toNat = s.memoryBuffer.reverse.filter
        (accepts lib (toLower lib keyword) (toLower lib server) (toLower lib level)) := by
      apply List.take_of_length_le
      omega
    rw [htake, hrev, if_neg (by omega)]
  · intro hm
    rw [Query_eq, List.filter_append, List.take_append_of_le_length (by omega)]

/-- Instance of C6: one accepted entry in the buffer, one on disk, `limit = 5`;
the query returns two entries. -/
theorem query_length_witness :
    (0 : Int) ≤ 5 ∧
    ((oneChunkOneBuffered.1.Query plainLib sampleNow oneChunkOneBuffered.2 [] [] [] 5).length : Int) =
      2 :=
  ⟨by decide,
    ((query_length plainLib sampleNow oneChunkOneBuffered.1 oneChunkOneBuffered.2 [] [] [] 5
      (by decide)).1).trans (by decide)⟩

/-! ## Metrics ring store: the sliding window -/

/-- A lookup after an assignment: the assigned value at the assigned key, the old
value elsewhere. -/
theorem mapGet_mapSet {α : Type} (m : GoMap α) (k k1 : Str) (v : α) :
    mapGet (mapSet m k v) k1 = if k = k1 then some v else mapGet m k1 := by
  induction m with
  | nil => simp [mapSet, mapGet]
  | cons p rest ih =>
    obtain ⟨a, w⟩ := p
    by_cases hak : a = k
    · subst hak
      by_cases h1 : a = k1 <;> simp [mapSet, mapGet, h1]
    · by_cases h1 : a = k1
      · subst h1
        have hka : ¬ k = a := fun h => hak h.symm
        simp [mapSet, mapGet, hak, hka]
      · simp [mapSet, mapGet, hak, h1, ih]

/-- The method `updateServerStatus` changes neither the sequences nor the
configuration. -/
theorem updateServerStatus_recentMetrics (lib : Lib) (clock : Clock) (m : MetricsStorage)
    (server : Str) (entry : MetricsEntry) :
    (m.updateServerStatus lib clock server entry).recentMetrics = m.recentMetrics ∧
    (m.updateServerStatus lib clock server entry).maxPointsPerServer = m.maxPointsPerServer ∧
    (m.updateServerStatus lib clock server entry).offlineThreshold = m.offlineThreshold := by
  unfold MetricsStorage.updateServerStatus
  cases mapGet m.serverStatus server <;> simp

/-- The window of the empty list. -/
theorem lastN_nil {α : Type} (k : Nat) : lastN k ([] : List α) = [] := by
  simp [lastN]

/-- Appending to a window of the last `M` elements and dropping the first element
when the length exceeds `M` gives the window of the extended list. -/
theorem window_lastN {α : Type} (M : Int) (hM : 0 ≤ M) (X : List α) (e : α) :
    (if ((lastN M.toNat X ++ [e]).length : Int) > M then (lastN M.toNat X ++ [e]).drop 1
      else lastN M.toNat X ++ [e]) = lastN M.toNat (X ++ [e]) := by
  obtain ⟨k, rfl⟩ := Int.eq_ofNat_of_zero_le hM
  simp only [Int.toNat_ofNat, lastN, List.length_append, List.length_drop, List.length_singleton]
  by_cases hlt : X.length < k
  · have h1 : X.length - k = 0 := by omega
    have h2 : X.length + 1 - k = 0 := by omega
    rw [h1, h2, if_neg (by simp; omega)]
    simp
  · have h2 : X.length + 1 - k = (X.length - k) + 1 := by omega
    rw [h2, if_pos (by simp; omega)]
    rw [List.drop_append_eq_append_drop, List.drop_append_eq_append_drop, List.drop_drop]
    simp only [List.length_drop]
    by_cases hk : k = 0
    · subst hk
      simp
    · have h3 : 1 - (X.length - (X.length - k)) = 0 := by omega
      have h4 : X.length - k + 1 - X.length = 0 := by omega
      rw [h3, h4]

/-- The entries of a host after one more call. -/
theorem entriesFor_snoc (server : Str) (calls : List (Clock × MetricsEntry)) (clock : Clock)
    (entry : MetricsEntry) :
    entriesFor server (calls ++ [(clock, entry)]) =
      entriesFor server calls ++ (if entry.Server = server then [entry] else []) := by
  unfold entriesFor
  by_cases h : entry.Server = server <;> simp [List.filter_cons, h]

/-- One `Append` with a non-negative capacity does not panic and keeps every
sequence equal to the expected window. -/
theorem Append_window (lib : Lib) (clock : Clock) (m : MetricsStorage) (entry : MetricsEntry)
    (M : Int) (hM : 0 ≤ M) (calls : List (Clock × MetricsEntry))
    (hmax : m.maxPointsPerServer = M)
    (hinv : ∀ h, mapGet m.recentMetrics h = expectedWindow M calls h) :
    ∃ m1, m.Append lib clock entry = some m1 ∧ m1.maxPointsPerServer = M ∧
      ∀ h, mapGet m1.recentMetrics h = expectedWindow M (calls ++ [(clock, entry)]) h := by
  by_cases hs : entry.Server = []
  · refine ⟨m, by simp [MetricsStorage.Append, hs], hmax, ?_⟩
    intro h
    rw [hinv h]
    unfold expectedWindow
    by_cases hh : h = []
    · simp [hh]
    · have hne : ¬ entry.Server = h := by
        rw [hs]
        exact fun h1 => hh h1.symm
      rw [entriesFor_snoc, if_neg hne, List.append_nil]
  · have hnew : ∀ h, expectedWindow M (calls ++ [(clock, entry)]) h =
        if entry.Server = h then some (lastN M.toNat (entriesFor entry.Server calls ++ [entry]))
        else expectedWindow M calls h := by
      intro h
      unfold expectedWindow
      rw [entriesFor_snoc]
      by_cases hh : entry.Server = h
      · subst hh
        simp [hs]
      · simp [hh]
    have hget := hinv entry.Server
    cases hold : mapGet m.recentMetrics entry.Server with
    | none =>
      have hempty : entriesFor entry.Server calls = [] := by
        rw [hold] at hget
        unfold expectedWindow at hget
        by_contra hne
        simp [hs, hne] at hget
      have hw := window_lastN M hM ([] : List MetricsEntry) entry
      rw [lastN_nil] at hw
      have hM1 : ¬ m.maxPointsPerServer < 0 := by
        rw [hmax]
        exact not_lt.mpr hM
      rw [← hmax] at hw
      refine ⟨_, by simp only [MetricsStorage.Append, hs, hold, if_false, if_neg hM1]; rfl, ?_, ?_⟩
      · rw [(updateServerStatus_recentMetrics _ _ _ _ _).2.1]
        exact hmax
      · intro h
        rw [(updateServerStatus_recentMetrics _ _ _ _ _).1, hnew h, hempty]
        simp only [mapGet_mapSet]
        by_cases hh : entry.Server = h
        · rw [if_pos hh, if_pos hh, hw, hmax]
        · rw [if_neg hh, if_neg hh, hinv h]
    | some old =>
      have hold1 : old = lastN M.toNat (entriesFor entry.Server calls) := by
        rw [hold] at hget
        unfold expectedWindow at hget
        by_cases hne : entriesFor entry.Server calls = []
        · simp [hne] at hget
        · simpa [hs, hne] using hget
      have hw := window_lastN M hM (entriesFor entry.Server calls) entry
      rw [← hold1] at hw
      rw [← hmax] at hw
      refine ⟨_, by simp only [MetricsStorage.Append, hs, hold, if_false]; rfl, ?_, ?_⟩
      · rw [(updateServerStatus_recentMetrics _ _ _ _ _).2.1]
        exact hmax
      · intro h
        rw [(updateServerStatus_recentMetrics _ _ _ _ _).1, hnew h]
        simp only [mapGet_mapSet]
        by_cases hh : entry.Server = h
        · rw [if_pos hh, if_pos hh, hw, hmax]
        · rw [if_neg hh, if_neg hh, hinv h]

/-- A sequence of `Append` calls with a non-negative capacity does not panic and
keeps every sequence equal to the expected window. -/
theorem appendAll_window (lib : Lib) (M : Int) (hM : 0 ≤ M) (rest : List (Clock × MetricsEntry)) :
    ∀ (m : MetricsStorage) (calls : List (Clock × MetricsEntry)),
      m.maxPointsPerServer = M →
      (∀ h, mapGet m.recentMetrics h = expectedWindow M calls h) →
      ∃ m1, appendAll lib m rest = some m1 ∧ m1.maxPointsPerServer = M ∧
        ∀ h, mapGet m1.recentMetrics h = expectedWindow M (calls ++ rest) h := by
  induction rest with
  | nil =>
    intro m calls hmax hinv
    exact ⟨m, rfl, hmax, by simpa using hinv⟩
  | cons c rest ih =>
    intro m calls hmax hinv
    obtain ⟨clock, entry⟩ := c
    obtain ⟨m1, happ, hmax1, hinv1⟩ := Append_window lib clock m entry M hM calls hmax hinv
    obtain ⟨m2, hall, hmax2, hinv2⟩ := ih m1 (calls ++ [(clock, entry)]) hmax1 hinv1
    refine ⟨m2, ?_, hmax2, ?_⟩
    · simp only [appendAll, happ]
      exact hall
    · intro h
      rw [hinv2 h, List.append_assoc]
      rfl

/-- C7: with `maxPointsPerServer ≥ 1`, a sequence of `Append` calls on a fresh store
does not panic, and afterwards the sequence stored for a host `h` is the last
`min(n_h, maxPointsPerServer)` entries appended with server `h`, in their
order; the empty server name, which `Append` rejects, and a host without entry
have no sequence.  No host holds more than `maxPointsPerServer` entries, and a
host with more than `maxPointsPerServer` appended entries holds exactly
`maxPointsPerServer`. -/
theorem ring_store_sliding_window (lib : Lib) (dataDir : Str) (maxPoints : Int)
    (hmax : 1 ≤ maxPoints) (calls : List (Clock × MetricsEntry)) :
    ∃ m, appendAll lib (NewMetricsStorage dataDir maxPoints) calls = some m ∧
      ∀ h : Str,
        (mapGet m.recentMetrics h =
          if h = [] ∨ entriesFor h calls = [] then none
          else some (lastN (min (entriesFor h calls).length maxPoints.toNat)
            (entriesFor h calls))) ∧
        (h ≠ [] → storedFor m h =
          lastN (min (entriesFor h calls).length maxPoints.toNat) (entriesFor h calls)) ∧
        ((storedFor m h).length : Int) ≤ maxPoints ∧
        (h ≠ [] → maxPoints < ((entriesFor h calls).length : Int) →
          ((storedFor m h).length : Int) = maxPoints) := by
  obtain ⟨m, hall, -, hinv⟩ := appendAll_window lib maxPoints (by omega) calls
    (NewMetricsStorage dataDir maxPoints) [] rfl (by intro h; simp [NewMetricsStorage, mapGet, expectedWindow, entriesFor])
  refine ⟨m, hall, ?_⟩
  intro h
  have hlast : lastN (min (entriesFor h calls).length maxPoints.toNat) (entriesFor h calls) =
      lastN maxPoints.toNat (entriesFor h calls) := by
    unfold lastN
    congr 1
    omega
  have hget := hinv h
  rw [List.nil_append] at hget
  unfold expectedWindow at hget
  rw [hlast]
  have hlen : (lastN maxPoints.toNat (entriesFor h calls)).length =
      min (entriesFor h calls).length maxPoints.toNat := by
    simp only [lastN, List.length_drop]
    omega
  refine ⟨hget, ?_, ?_, ?_⟩
  · intro hh
    unfold storedFor
    rw [hget]
    by_cases he : entriesFor h calls = []
    · simp [he, lastN]
    · simp [hh, he]
  · unfold storedFor
    rw [hget]
    split_ifs
    · simp
      omega
    · simp only [Option.getD_some, hlen]
      omega
  · intro hh hlt
    have he : entriesFor h calls ≠ [] := by
      intro h0
      rw [h0] at hlt
      simp at hlt
      omega
    unfold storedFor
    rw [hget]
    simp only [hh, he, or_self, if_false, Option.getD_some, hlen]
    omega

/-- Instance of C7: capacity 2 and three samples of `web1`; the store keeps the
last two. -/
theorem ring_store_sliding_window_witness :
    (1 : Int) ≤ 2 ∧
    (appendAll plainLib (NewMetricsStorage "data".toList 2) sampleCalls).map
      (fun m => storedFor m "web1".toList) = some [webSample 50, webSample 90] ∧
    ∃ m, appendAll plainLib (NewMetricsStorage "data".toList 2) sampleCalls = some m ∧
      ∀ h : Str,
        (mapGet m.recentMetrics h =
          if h = [] ∨ entriesFor h sampleCalls = [] then none
          else some (lastN (min (entriesFor h sampleCalls).length (2 : Int).toNat)
            (entriesFor h sampleCalls))) ∧
        (h ≠ [] → storedFor m h =
          lastN (min (entriesFor h sampleCalls).length (2 : Int).toNat)
            (entriesFor h sampleCalls)) ∧
        ((storedFor m h).length : Int) ≤ 2 ∧
        (h ≠ [] → (2 : Int) < ((entriesFor h sampleCalls).length : Int) →
          ((storedFor m h).length : Int) = 2) :=
  ⟨by decide, by decide,
    ring_store_sliding_window plainLib "data".toList 2 (by decide) sampleCalls⟩

/-! ## Status calculator -/

/-- After `updateServerStatus` the host has a record whose `LastSeen` is the text of
the local wall clock. -/
theorem updateServerStatus_lastSeen (lib : Lib) (clock : Clock) (m : MetricsStorage)
    (server : Str) (entry : MetricsEntry) :
    ∃ st, mapGet (m.updateServerStatus lib clock server entry).serverStatus server = some st ∧
      st.LastSeen = nowText lib clock ∧ st.Latest = some entry.Metrics := by
  unfold MetricsStorage.updateServerStatus
  cases mapGet m.serverStatus server <;> simp [mapGet_mapSet]

/-- After an accepted `Append` the host has a record whose `LastSeen` is the text of
the local wall clock of the call; the threshold is unchanged. -/
theorem Append_serverStatus (lib : Lib) (clock : Clock) (m m1 : MetricsStorage)
    (entry : MetricsEntry) (hs : entry.Server ≠ [])
    (happ : m.Append lib clock entry = some m1) :
    m1.offlineThreshold = m.offlineThreshold ∧
    ∃ st, mapGet m1.serverStatus entry.Server = some st ∧
      st.LastSeen = nowText lib clock ∧ st.Latest = some entry.Metrics := by
  unfold MetricsStorage.Append at happ
  simp only [hs, if_false] at happ
  cases hold : mapGet m.recentMetrics entry.Server with
  | none =>
    rw [hold] at happ
    simp only at happ
    by_cases hneg : m.maxPointsPerServer < 0
    · simp [hneg] at happ
    · simp only [hneg, if_false, Option.some.injEq] at happ
      subst happ
      exact ⟨(updateServerStatus_recentMetrics _ _ _ _ _).2.2,
        updateServerStatus_lastSeen _ _ _ _ _⟩
  | some old =>
    rw [hold] at happ
    simp only [Option.some.injEq] at happ
    subst happ
    exact ⟨(updateServerStatus_recentMetrics _ _ _ _ _).2.2,
      updateServerStatus_lastSeen _ _ _ _ _⟩

/-- C8: for a host in the status table whose `last_seen` parses, with the threshold
of 90 s set by `NewMetricsStorage`, `calculateServerStatus` returns `offline`
exactly when `elapsed > 90s`, `timeout` exactly when `60s < elapsed ≤ 90s` and
`online` exactly when `elapsed ≤ 60s`, where `elapsed` is `time.Since` of the
parsed `last_seen`; 59 s gives `online`, 61 s `timeout`, 91 s `offline`; a host
that is not in the table gives `unknown`. -/
theorem status_thresholds (lib : Lib) (clock : Clock) (m : MetricsStorage) (server : Str)
    (hthr : m.offlineThreshold = 90 * second) :
    (mapGet m.serverStatus server = none →
      m.calculateServerStatus lib clock server = "unknown".toList) ∧
    ∀ status lastSeen, mapGet m.serverStatus server = some status →
      lib.timeParse status.LastSeen = some lastSeen →
      (m.calculateServerStatus lib clock server = "offline".toList ↔
        since clock lastSeen > 90 * second) ∧
      (m.calculateServerStatus lib clock server = "timeout".toList ↔
        60 * second < since clock lastSeen ∧ since clock lastSeen ≤ 90 * second) ∧
      (m.calculateServerStatus lib clock server = "online".toList ↔
        since clock lastSeen ≤ 60 * second) ∧
      (since clock lastSeen = 59 * second →
        m.calculateServerStatus lib clock server = "online".toList) ∧
      (since clock lastSeen = 61 * second →
        m.calculateServerStatus lib clock server = "timeout".toList) ∧
      (since clock lastSeen = 91 * second →
        m.calculateServerStatus lib clock server = "offline".toList) := by
  refine ⟨?_, ?_⟩
  · intro hnone
    simp [MetricsStorage.calculateServerStatus, hnone]
  · intro status lastSeen hget hparse
    have hcalc : m.calculateServerStatus lib clock server =
        if since clock lastSeen > 90 * second then "offline".toList
        else if since clock lastSeen > 60 * second then "timeout".toList
        else "online".toList := by
      simp only [MetricsStorage.calculateServerStatus, hget, hparse, hthr]
    rw [hcalc]
    have h1 : "offline".toList ≠ "timeout".toList := by decide
    have h2 : "offline".toList ≠ "online".toList := by decide
    have h3 : "timeout".toList ≠ "online".toList := by decide
    have hsec : second = 1000000000 := rfl
    refine ⟨?_, ?_, ?_, ?_, ?_, ?_⟩
    · split_ifs <;> simp_all [Ne.symm]
    · split_ifs <;> simp_all [Ne.symm]
    · split_ifs <;> simp_all [Ne.symm]
      omega
    · intro h
      rw [h, hsec]
      decide
    · intro h
      rw [h, hsec]
      decide
    · intro h
      rw [h, hsec]
      decide

/-- Instance of C8: host `web1` last seen at second 1714557660 of a UTC process,
read 59 s, 61 s and 91 s later, and the unknown host `db1`. -/
theorem status_thresholds_witness :
    sampleMetrics.offlineThreshold = 90 * second ∧
    sampleMetrics.calculateServerStatus plainLib
      { nanos := 1714557719 * second, zoneOffset := 0 } "web1".toList = "online".toList ∧
    sampleMetrics.calculateServerStatus plainLib
      { nanos := 1714557721 * second, zoneOffset := 0 } "web1".toList = "timeout".toList ∧
    sampleMetrics.calculateServerStatus plainLib
      { nanos := 1714557751 * second, zoneOffset := 0 } "web1".toList = "offline".toList ∧
    sampleMetrics.calculateServerStatus plainLib
      { nanos := 1714557751 * second, zoneOffset := 0 } "db1".toList = "unknown".toList :=
  ⟨by decide,
    ((status_thresholds plainLib { nanos := 1714557719 * second, zoneOffset := 0 } sampleMetrics
      "web1".toList (by decide)).2 webStatus 1714557660 (by decide) (by decide)).2.2.2.1 (by decide),
    ((status_thresholds plainLib { nanos := 1714557721 * second, zoneOffset := 0 } sampleMetrics
      "web1".toList (by decide)).2 webStatus 1714557660 (by decide) (by decide)).2.2.2.2.1 (by decide),
    ((status_thresholds plainLib { nanos := 1714557751 * second, zoneOffset := 0 } sampleMetrics
      "web1".toList (by decide)).2 webStatus 1714557660 (by decide) (by decide)).2.2.2.2.2 (by decide),
    (status_thresholds plainLib { nanos := 1714557751 * second, zoneOffset := 0 } sampleMetrics
      "db1".toList (by decide)).1 (by decide)⟩

/-- C9, evaluated for a process whose local zone is not UTC: `last_seen` is written
as local wall clock text and parsed back as UTC, so the elapsed time is off by
the zone offset.  In a zone at least 32 s east of UTC a host is still `online`
91 s after its last `Append`; in a zone at least 32 s west of UTC it is already
`offline` after 59 s. -/
theorem status_shifted_by_zone (lib : Lib) (m m1 : MetricsStorage) (entry : MetricsEntry)
    (t off : Int) (hserver : entry.Server ≠ []) (hthr : m.offlineThreshold = 90 * second)
    (hparse : lib.timeParse (lib.timeFormat (t / second + off)) = some (t / second + off))
    (happ : m.Append lib { nanos := t, zoneOffset := off } entry = some m1) :
    (32 ≤ off →
      m1.calculateServerStatus lib { nanos := t + 91 * second, zoneOffset := off } entry.Server =
        "online".toList) ∧
    (off ≤ -32 →
      m1.calculateServerStatus lib { nanos := t + 59 * second, zoneOffset := off } entry.Server =
        "offline".toList) := by
  obtain ⟨hthr1, st, hget, hseen, -⟩ :=
    Append_serverStatus lib { nanos := t, zoneOffset := off } m m1 entry hserver happ
  have hp : lib.timeParse st.LastSeen = some (t / second + off) := by
    rw [hseen]
    exact hparse
  have hsec : second = 1000000000 := rfl
  constructor
  · intro hoff
    simp only [MetricsStorage.calculateServerStatus, hget, hp, hthr1, hthr, since, durationSub, hsec]
    split_ifs <;> first | rfl | omega
  · intro hoff
    simp only [MetricsStorage.calculateServerStatus, hget, hp, hthr1, hthr, since, durationSub, hsec]
    split_ifs <;> first | rfl | omega

/-- Instance of C9: one `Append` for `web1` in a zone eight hours east of UTC, read
91 s later: the status is `online`. -/
theorem status_shifted_by_zone_witness :
    (webSample 10).Server ≠ [] ∧
    (NewMetricsStorage "data".toList 120).offlineThreshold = 90 * second ∧
    plainLib.timeParse (plainLib.timeFormat (1714557600 * second / second + 28800)) =
      some (1714557600 * second / second + 28800) ∧
    (NewMetricsStorage "data".toList 120).Append plainLib eastClock (webSample 10) =
      some eastMetrics ∧
    eastMetrics.calculateServerStatus plainLib
      { nanos := 1714557600 * second + 91 * second, zoneOffset := 28800 } (webSample 10).Server =
        "online".toList :=
  ⟨by decide, by decide, by decide, by decide,
    (status_shifted_by_zone plainLib (NewMetricsStorage "data".toList 120) eastMetrics
      (webSample 10) (1714557600 * second) 28800 (by decide) (by decide) (by decide)
      (by decide)).1 (by decide)⟩

/-! ## Conservation of log entries -/

/-- The appended entries after one more step. -/
theorem appendedEntries_snoc (ops : List LogOp) (op : LogOp) :
    appendedEntries (ops ++ [op]) = appendedEntries ops ++ appendedEntries [op] := by
  induction ops with
  | nil => simp [appendedEntries]
  | cons o rest ih =>
    cases o <;> simp [appendedEntries, ih]

/-- The text of a concatenated batch. -/
theorem renderLines_append (a b : List LogEntry) :
    renderLines (a ++ b) = renderLines a ++ renderLines b := by
  simp [renderLines]

/-- The text of the concatenation of batches. -/
theorem renderLines_flatten (bs : List (List LogEntry)) :
    renderLines bs.flatten = (bs.map renderLines).flatten := by
  induction bs with
  | nil => simp [renderLines]
  | cons b rest ih => simp [renderLines_append, ih]

/-- Invariant of the runs of the log engine: the data directory is the initial one
with one chunk per non-empty batch written in order, and the batches followed
by the buffer are the appended entries. -/
theorem runLog_conserves (lib : Lib) (dataDir : Str) (disk0 : Disk) (ops : List LogOp) :
    (runLog lib (NewLogStorage dataDir, disk0) ops).1.dataDir = dataDir ∧
    (runLog lib (NewLogStorage dataDir, disk0) ops).1.TotalReceived =
      ((appendedEntries ops).length : Int) ∧
    ∃ batches : List (Now × List LogEntry),
      (runLog lib (NewLogStorage dataDir, disk0) ops).2 = writeBatches lib dataDir disk0 batches ∧
      (∀ b ∈ batches, b.2 ≠ []) ∧
      (batches.map (fun b => b.2)).flatten ++
        (runLog lib (NewLogStorage dataDir, disk0) ops).1.memoryBuffer = appendedEntries ops ∧
      (runLog lib (NewLogStorage dataDir, disk0) ops).1.TotalCompressed =
        (((batches.map (fun b => b.2)).flatten.length : Nat) : Int) := by
  induction ops using List.reverseRecOn with
  | nil =>
    exact ⟨rfl, rfl, [], rfl, by simp, rfl, rfl⟩
  | append_singleton ops op ih =>
    obtain ⟨hdir, hrecv, batches, hdisk, hne, hall, hcomp⟩ := ih
    have hrun : runLog lib (NewLogStorage dataDir, disk0) (ops ++ [op]) =
        stepLog lib (runLog lib (NewLogStorage dataDir, disk0) ops) op := by
      simp [runLog, List.foldl_append]
    rw [hrun, appendedEntries_snoc]
    generalize runLog lib (NewLogStorage dataDir, disk0) ops = st at *
    obtain ⟨s, disk⟩ := st
    simp only at hdir hrecv hdisk hall hcomp
    cases op with
    | append log =>
      refine ⟨hdir, ?_, batches, hdisk, hne, ?_, hcomp⟩
      · simp [stepLog, LogStorage.Append, hrecv, appendedEntries]
      · simp [stepLog, LogStorage.Append, appendedEntries, ← hall]
    | flush now =>
      by_cases hempty : s.memoryBuffer.length = 0
      · have hstep : stepLog lib (s, disk) (.flush now) = (s, disk) := by
          simp [stepLog, LogStorage.flushToDisk, hempty]
        rw [hstep]
        exact ⟨hdir, by simpa [appendedEntries] using hrecv, batches, hdisk, hne,
          by simpa [appendedEntries] using hall, hcomp⟩
      · have hbuf : s.memoryBuffer ≠ [] := by
          intro h0
          exact hempty (by simp [h0])
        refine ⟨?_, ?_, batches ++ [(now, s.memoryBuffer)], ?_, ?_, ?_, ?_⟩
        · simp [stepLog, LogStorage.flushToDisk, hempty, hdir]
        · simp [stepLog, LogStorage.flushToDisk, hempty, hrecv, appendedEntries]
        · simp [stepLog, LogStorage.flushToDisk, hempty, writeBatches, List.foldl_append,
            writeBatch, hdir]
          rw [hdisk]
          rfl
        · intro b hb
          rcases List.mem_append.mp hb with h1 | h1
          · exact hne b h1
          · simp at h1
            rw [h1]
            exact hbuf
        · simp [stepLog, LogStorage.flushToDisk, hempty, appendedEntries, ← hall]
        · simp [stepLog, LogStorage.flushToDisk, hempty, hcomp]

/-- C10: in every state reached from a fresh store by a sequence of `Append` and
`flushToDisk` steps, `TotalReceived = TotalCompressed + len(memoryBuffer)`; the
data directory is the initial one with one chunk written per non-empty batch,
in order, and the batches of these chunks followed by the buffer are the
appended entries in append order, as entries and as rendered lines; both
counters count what they name. -/
theorem log_entries_conserved (lib : Lib) (dataDir : Str) (disk0 : Disk) (ops : List LogOp) :
    (runLog lib (NewLogStorage dataDir, disk0) ops).1.TotalReceived =
      (runLog lib (NewLogStorage dataDir, disk0) ops).1.TotalCompressed +
        ((runLog lib (NewLogStorage dataDir, disk0) ops).1.memoryBuffer.length : Int) ∧
    ∃ batches : List (Now × List LogEntry),
      (runLog lib (NewLogStorage dataDir, disk0) ops).2 = writeBatches lib dataDir disk0 batches ∧
      (∀ b ∈ batches, b.2 ≠ []) ∧
      (batches.map (fun b => b.2)).flatten ++
        (runLog lib (NewLogStorage dataDir, disk0) ops).1.memoryBuffer = appendedEntries ops ∧
      (batches.map (fun b => renderLines b.2)).flatten ++
        renderLines (runLog lib (NewLogStorage dataDir, disk0) ops).1.memoryBuffer =
          renderLines (appendedEntries ops) ∧
      (runLog lib (NewLogStorage dataDir, disk0) ops).1.TotalReceived =
        ((appendedEntries ops).length : Int) ∧
      (runLog lib (NewLogStorage dataDir, disk0) ops).1.TotalCompressed =
        (((batches.map (fun b => b.2)).flatten.length : Nat) : Int) := by
  obtain ⟨-, hrecv, batches, hdisk, hne, hall, hcomp⟩ := runLog_conserves lib dataDir disk0 ops
  refine ⟨?_, batches, hdisk, hne, hall, ?_, hrecv, hcomp⟩
  · rw [hrecv, hcomp, ← hall, List.length_append]
    push_cast
    rfl
  · rw [← hall, renderLines_append, renderLines_flatten, List.map_map]
    rfl

/-! ## Aggregation, per-host query, compaction threshold -/

/-- The running maximum is at least the initial value and every element, and it is the initial value or an element. -/
theorem runMax_spec (l : List ℚ) (m0 : ℚ) :
    m0 ≤ runMax l m0 ∧ (∀ x ∈ l, x ≤ runMax l m0) ∧ (runMax l m0 = m0 ∨ runMax l m0 ∈ l) := by
  induction l generalizing m0 with
  | nil => simp [runMax]
  | cons y ys ih =>
    have hstep : runMax (y :: ys) m0 = runMax ys (if y > m0 then y else m0) := rfl
    rw [hstep]
    by_cases hy : y > m0
    · rw [if_pos hy]
      obtain ⟨h1, h2, h3⟩ := ih y
      refine ⟨le_trans (le_of_lt hy) h1, ?_, ?_⟩
      · intro x hx
        rcases List.mem_cons.mp hx with rfl | hx
        · exact h1
        · exact h2 x hx
      · right
        rcases h3 with h3 | h3
        · rw [h3]
          exact List.mem_cons_self _ _
        · exact List.mem_cons_of_mem _ h3
    · rw [if_neg hy]
      obtain ⟨h1, h2, h3⟩ := ih m0
      refine ⟨h1, ?_, ?_⟩
      · intro x hx
        rcases List.mem_cons.mp hx with rfl | hx
        · exact le_trans (not_lt.mp hy) h1
        · exact h2 x hx
      · rcases h3 with h3 | h3
        · exact Or.inl h3
        · exact Or.inr (List.mem_cons_of_mem _ h3)

/-- The running minimum is at most the initial value and every element, and it is the initial value or an element. -/
theorem runMin_spec (l : List ℚ) (m0 : ℚ) :
    runMin l m0 ≤ m0 ∧ (∀ x ∈ l, runMin l m0 ≤ x) ∧ (runMin l m0 = m0 ∨ runMin l m0 ∈ l) := by
  induction l generalizing m0 with
  | nil => simp [runMin]
  | cons y ys ih =>
    have hstep : runMin (y :: ys) m0 = runMin ys (if y < m0 then y else m0) := rfl
    rw [hstep]
    by_cases hy : y < m0
    · rw [if_pos hy]
      obtain ⟨h1, h2, h3⟩ := ih y
      refine ⟨le_trans h1 (le_of_lt hy), ?_, ?_⟩
      · intro x hx
        rcases List.mem_cons.mp hx with rfl | hx
        · exact h1
        · exact h2 x hx
      · right
        rcases h3 with h3 | h3
        · rw [h3]
          exact List.mem_cons_self _ _
        · exact List.mem_cons_of_mem _ h3
    · rw [if_neg hy]
      obtain ⟨h1, h2, h3⟩ := ih m0
      refine ⟨h1, ?_, ?_⟩
      · intro x hx
        rcases List.mem_cons.mp hx with rfl | hx
        · exact le_trans h1 (not_lt.mp hy)
        · exact h2 x hx
      · rcases h3 with h3 | h3
        · exact Or.inl h3
        · exact Or.inr (List.mem_cons_of_mem _ h3)

/-- The variables of the loop of `GetAggregatedStats` after the entries `w`: the four sums, the running maxima and the running minima. -/
theorem foldl_aggStep (w : List MetricsEntry) (a : AggState) :
    (w.foldl aggStep a).sumCPU = a.sumCPU + (w.map (fun e => e.Metrics.CPUPercent)).sum ∧
    (w.foldl aggStep a).sumMemory = a.sumMemory + (w.map (fun e => e.Metrics.MemoryPercent)).sum ∧
    (w.foldl aggStep a).sumDisk = a.sumDisk + (w.map (fun e => e.Metrics.DiskPercent)).sum ∧
    (w.foldl aggStep a).sumLoad = a.sumLoad + (w.map (fun e => e.Metrics.LoadAvg)).sum ∧
    (w.foldl aggStep a).maxCPU = runMax (w.map (fun e => e.Metrics.CPUPercent)) a.maxCPU ∧
    (w.foldl aggStep a).maxMemory = runMax (w.map (fun e => e.Metrics.MemoryPercent)) a.maxMemory ∧
    (w.foldl aggStep a).minCPU = runMin (w.map (fun e => e.Metrics.CPUPercent)) a.minCPU ∧
    (w.foldl aggStep a).minMemory = runMin (w.map (fun e => e.Metrics.MemoryPercent)) a.minMemory := by
  induction w generalizing a with
  | nil => simp [runMax, runMin]
  | cons e rest ih =>
    obtain ⟨h1, h2, h3, h4, h5, h6, h7, h8⟩ := ih (aggStep a e)
    simp only [List.foldl_cons, List.map_cons, List.sum_cons]
    refine ⟨?_, ?_, ?_, ?_, ?_, ?_, ?_, ?_⟩
    · rw [h1]; simp [aggStep, add_assoc]
    · rw [h2]; simp [aggStep, add_assoc]
    · rw [h3]; simp [aggStep, add_assoc]
    · rw [h4]; simp [aggStep, add_assoc]
    · rw [h5]; rfl
    · rw [h6]; rfl
    · rw [h7]; rfl
    · rw [h8]; rfl

/-- The result of `GetAggregatedStats` for a host with a non-empty sequence, in closed form. -/
theorem GetAggregatedStats_cons (m : MetricsStorage) (server : Str) (first : MetricsEntry)
    (rest : List MetricsEntry) (hget : mapGet m.recentMetrics server = some (first :: rest)) :
    m.GetAggregatedStats server = some
      { server := server
        latest := ((first :: rest).getLastD first).Metrics
        avgCPU := ((first :: rest).map (fun e => e.Metrics.CPUPercent)).sum /
          ((first :: rest).length : ℚ)
        avgMemory := ((first :: rest).map (fun e => e.Metrics.MemoryPercent)).sum /
          ((first :: rest).length : ℚ)
        avgDisk := ((first :: rest).map (fun e => e.Metrics.DiskPercent)).sum /
          ((first :: rest).length : ℚ)
        avgLoad := ((first :: rest).map (fun e => e.Metrics.LoadAvg)).sum /
          ((first :: rest).length : ℚ)
        maxCPU := runMax ((first :: rest).map (fun e => e.Metrics.CPUPercent))
          first.Metrics.CPUPercent
        maxMemory := runMax ((first :: rest).map (fun e => e.Metrics.MemoryPercent))
          first.Metrics.MemoryPercent
        minCPU := runMin ((first :: rest).map (fun e => e.Metrics.CPUPercent))
          first.Metrics.CPUPercent
        minMemory := runMin ((first :: rest).map (fun e => e.Metrics.MemoryPercent))
          first.Metrics.MemoryPercent
        samples := ((first :: rest).length : Int) } := by
  obtain ⟨h1, h2, h3, h4, h5, h6, h7, h8⟩ := foldl_aggStep (first :: rest)
    { sumCPU := 0, sumMemory := 0, sumDisk := 0, sumLoad := 0
      maxCPU := first.Metrics.CPUPercent, minCPU := first.Metrics.CPUPercent
      maxMemory := first.Metrics.MemoryPercent, minMemory := first.Metrics.MemoryPercent }
  simp only [zero_add] at h1 h2 h3 h4 h5 h6 h7 h8
  simp only [MetricsStorage.GetAggregatedStats, hget, h1, h2, h3, h4, h5, h6, h7, h8]

/-- C11: for a host whose stored window is the non-empty list `w`, `GetAggregatedStats`
returns a summary with `samples = len(w)`, `latest` the metrics of the last
element, each average the sum of the field over `w` divided by `len(w)`, and
`max.cpu`, `max.memory`, `min.cpu`, `min.memory` the greatest and the least
value of the field over `w` (readings as exact rationals).  For the cpu
samples `[10, 20, 30]` this is avg 20, max 30, min 10; for `[10, 50, 90]` it is
avg 50, max 90, min 10, samples 3, latest cpu 90. -/
theorem aggregated_stats_arithmetic (m : MetricsStorage) (server : Str) (w : List MetricsEntry)
    (hget : mapGet m.recentMetrics server = some w) (hw : w ≠ []) :
    ∃ r, m.GetAggregatedStats server = some r ∧
      r.samples = (w.length : Int) ∧
      r.latest = (w.getLast hw).Metrics ∧
      r.avgCPU = (w.map (fun e => e.Metrics.CPUPercent)).sum / (w.length : ℚ) ∧
      r.avgMemory = (w.map (fun e => e.Metrics.MemoryPercent)).sum / (w.length : ℚ) ∧
      r.avgDisk = (w.map (fun e => e.Metrics.DiskPercent)).sum / (w.length : ℚ) ∧
      r.avgLoad = (w.map (fun e => e.Metrics.LoadAvg)).sum / (w.length : ℚ) ∧
      ((∀ e ∈ w, e.Metrics.CPUPercent ≤ r.maxCPU) ∧ ∃ e ∈ w, e.Metrics.CPUPercent = r.maxCPU) ∧
      ((∀ e ∈ w, e.Metrics.MemoryPercent ≤ r.maxMemory) ∧
        ∃ e ∈ w, e.Metrics.MemoryPercent = r.maxMemory) ∧
      ((∀ e ∈ w, r.minCPU ≤ e.Metrics.CPUPercent) ∧ ∃ e ∈ w, e.Metrics.CPUPercent = r.minCPU) ∧
      ((∀ e ∈ w, r.minMemory ≤ e.Metrics.MemoryPercent) ∧
        ∃ e ∈ w, e.Metrics.MemoryPercent = r.minMemory) ∧
      (w.map (fun e => e.Metrics.CPUPercent) = [10, 20, 30] →
        r.avgCPU = 20 ∧ r.maxCPU = 30 ∧ r.minCPU = 10) ∧
      (w.map (fun e => e.Metrics.CPUPercent) = [10, 50, 90] →
        r.avgCPU = 50 ∧ r.maxCPU = 90 ∧ r.minCPU = 10 ∧ r.samples = 3 ∧
          r.latest.CPUPercent = 90) := by
  cases w with
  | nil => exact absurd rfl hw
  | cons first rest =>
    have hmaxmem : ∀ (f : MetricsEntry → ℚ),
        (∀ e ∈ first :: rest, f e ≤ runMax ((first :: rest).map f) (f first)) ∧
        ∃ e ∈ first :: rest, f e = runMax ((first :: rest).map f) (f first) := by
      intro f
      obtain ⟨-, h2, h3⟩ := runMax_spec ((first :: rest).map f) (f first)
      refine ⟨fun e he => h2 _ (List.mem_map_of_mem f he), ?_⟩
      rcases h3 with h3 | h3
      · exact ⟨first, List.mem_cons_self _ _, h3.symm⟩
      · obtain ⟨e, he, hfe⟩ := List.mem_map.mp h3
        exact ⟨e, he, hfe⟩
    have hminmem : ∀ (f : MetricsEntry → ℚ),
        (∀ e ∈ first :: rest, runMin ((first :: rest).map f) (f first) ≤ f e) ∧
        ∃ e ∈ first :: rest, f e = runMin ((first :: rest).map f) (f first) := by
      intro f
      obtain ⟨-, h2, h3⟩ := runMin_spec ((first :: rest).map f) (f first)
      refine ⟨fun e he => h2 _ (List.mem_map_of_mem f he), ?_⟩
      rcases h3 with h3 | h3
      · exact ⟨first, List.mem_cons_self _ _, h3.symm⟩
      · obtain ⟨e, he, hfe⟩ := List.mem_map.mp h3
        exact ⟨e, he, hfe⟩
    have hlast : (first :: rest).getLastD first = (first :: rest).getLast hw := by
      simp [List.getLastD, List.getLast?_eq_getLast]
    refine ⟨_, GetAggregatedStats_cons m server first rest hget, rfl, ?_, rfl, rfl, rfl, rfl,
      hmaxmem (fun e => e.Metrics.CPUPercent), hmaxmem (fun e => e.Metrics.MemoryPercent),
      hminmem (fun e => e.Metrics.CPUPercent), hminmem (fun e => e.Metrics.MemoryPercent), ?_, ?_⟩
    · simp only [hlast]
    · intro hmap
      have hfirst : first.Metrics.CPUPercent = 10 := by
        simpa using congrArg List.head? hmap
      have hlen : (first :: rest).length = 3 := by
        simpa using congrArg List.length hmap
      simp only [hmap, hfirst, hlen]
      norm_num [runMax, runMin]
    · intro hmap
      have hfirst : first.Metrics.CPUPercent = 10 := by
        simpa using congrArg List.head? hmap
      have hlen : (first :: rest).length = 3 := by
        simpa using congrArg List.length hmap
      have hl : ((first :: rest).getLast hw).Metrics.CPUPercent = 90 := by
        have h := congrArg List.getLast? hmap
        rw [List.getLast?_map, List.getLast?_eq_getLast _ hw] at h
        simpa using h
      simp only [hmap, hfirst, hlen, hlast, hl]
      norm_num [runMax, runMin]

/-- Instance of C11: host `web1` of `sampleMetrics` with the cpu samples 10, 50, 90. -/
theorem aggregated_stats_arithmetic_witness :
    mapGet sampleMetrics.recentMetrics "web1".toList =
      some [webSample 10, webSample 50, webSample 90] ∧
    [webSample 10, webSample 50, webSample 90] ≠ [] ∧
    ∃ r, sampleMetrics.GetAggregatedStats "web1".toList = some r ∧
      r.avgCPU = 50 ∧ r.maxCPU = 90 ∧ r.minCPU = 10 ∧ r.samples = 3 ∧ r.latest.CPUPercent = 90 :=
  ⟨by decide, by decide,
    (aggregated_stats_arithmetic sampleMetrics "web1".toList
      [webSample 10, webSample 50, webSample 90] (by decide) (by decide)).imp
      (fun _ h => ⟨h.1, h.2.2.2.2.2.2.2.2.2.2.2.2 (by decide)⟩)⟩

/-- C12: `Append` of an entry whose server name is empty returns normally and leaves
the whole store as it was: the sequences, the status table and the counter
`TotalMetricsReceived`. -/
theorem Append_empty_server_noop (lib : Lib) (clock : Clock) (m : MetricsStorage)
    (entry : MetricsEntry) (hserver : entry.Server = []) :
    m.Append lib clock entry = some m := by
  simp [MetricsStorage.Append, hserver]

/-- Instance of C12: a sample without server name appended to `sampleMetrics`. -/
theorem Append_empty_server_noop_witness :
    ({ webSample 10 with Server := [] } : MetricsEntry).Server = [] ∧
    sampleMetrics.Append plainLib eastClock { webSample 10 with Server := [] } =
      some sampleMetrics :=
  ⟨rfl, Append_empty_server_noop plainLib eastClock sampleMetrics
    { webSample 10 with Server := [] } rfl⟩

/-- C13: for a non-empty server name and `limit ≥ 0`, `Query` returns the last
`min(limit, n)` entries of the stored sequence of the host, in stored order,
and the empty list when the host is unknown.  `Query` returns nothing but this
list: the store is an argument that it only reads. -/
theorem metrics_query_last (m : MetricsStorage) (server metricName : Str) (limit : Int)
    (hserver : server ≠ []) (hlimit : 0 ≤ limit) :
    m.Query server metricName limit =
      some (lastN (min limit.toNat (storedFor m server).length) (storedFor m server)) ∧
    (mapGet m.recentMetrics server = none → m.Query server metricName limit = some []) := by
  unfold MetricsStorage.Query storedFor
  rw [if_neg hserver]
  cases hget : mapGet m.recentMetrics server with
  | none => simp [lastN]
  | some entries =>
    simp only [Option.getD_some]
    by_cases h0 : entries.length = 0
    · have hnil : entries = [] := List.length_eq_zero.mp h0
      simp [hnil, lastN]
    · rw [if_neg h0]
      by_cases hgt : (entries.length : Int) > limit
      · simp only [if_pos hgt]
        rw [if_neg (by omega)]
        have h1 : ((entries.length : Int) - limit).toNat =
            entries.length - min limit.toNat entries.length := by omega
        simp [lastN, h1]
      · simp only [if_neg hgt]
        rw [if_neg (by omega)]
        have h1 : entries.length - min limit.toNat entries.length = 0 := by omega
        simp [lastN, h1]

/-- Instance of C13: the last two of the three samples of `web1`. -/
theorem metrics_query_last_witness :
    "web1".toList ≠ [] ∧ (0 : Int) ≤ 2 ∧
    sampleMetrics.Query "web1".toList "cpu".toList 2 = some [webSample 50, webSample 90] :=
  ⟨by decide, by decide,
    ((metrics_query_last sampleMetrics "web1".toList "cpu".toList 2 (by decide)
      (by decide)).1).trans (by decide)⟩

/-- C17: `GetAggregatedStats` returns `nil` exactly when the host has no sequence or
an empty one; in every other case it returns a summary whose `server` field is
the requested name. -/
theorem GetAggregatedStats_absent_iff (m : MetricsStorage) (server : Str) :
    (m.GetAggregatedStats server = none ↔
      (mapGet m.recentMetrics server = none ∨ mapGet m.recentMetrics server = some [])) ∧
    (m.GetAggregatedStats server).map (fun r => r.server) =
      if mapGet m.recentMetrics server = none ∨ mapGet m.recentMetrics server = some [] then none
      else some server := by
  cases hget : mapGet m.recentMetrics server with
  | none => simp [MetricsStorage.GetAggregatedStats, hget]
  | some entries =>
    cases entries with
    | nil => simp [MetricsStorage.GetAggregatedStats, hget]
    | cons first rest => simp [GetAggregatedStats_cons m server first rest hget]

/-- With an empty buffer `flushToDisk` changes neither the store nor the data directory. -/
theorem flushToDisk_empty (lib : Lib) (now : Now) (s : LogStorage) (disk : Disk)
    (hempty : s.memoryBuffer = []) : s.flushToDisk lib now disk = (s, disk) := by
  simp [LogStorage.flushToDisk, hempty]

/-- After `flushToDisk` the buffer is empty. -/
theorem flushToDisk_buffer (lib : Lib) (now : Now) (s : LogStorage) (disk : Disk) :
    (s.flushToDisk lib now disk).1.memoryBuffer = [] := by
  unfold LogStorage.flushToDisk
  by_cases h : s.memoryBuffer.length = 0
  · rw [if_pos h]
    exact List.length_eq_zero.mp h
  · rw [if_neg h]

/-- C15: with an empty buffer `flushToDisk` returns the store and the data directory
unchanged (buffer, counters, ratio and every file); and for every state a
second `flushToDisk` right after a first one yields the state the first one
produced. -/
theorem flush_empty_noop_idempotent (lib : Lib) (now now2 : Now) (s : LogStorage) (disk : Disk) :
    (s.memoryBuffer = [] → s.flushToDisk lib now disk = (s, disk)) ∧
    (s.flushToDisk lib now disk).1.flushToDisk lib now2 (s.flushToDisk lib now disk).2 =
      s.flushToDisk lib now disk :=
  ⟨flushToDisk_empty lib now s disk,
    flushToDisk_empty lib now2 _ _ (flushToDisk_buffer lib now s disk)⟩

/-- Instance of C15: a fresh store flushed against a data directory that holds two chunks. -/
theorem flush_empty_noop_idempotent_witness :
    (NewLogStorage "data".toList).memoryBuffer = [] ∧
    (NewLogStorage "data".toList).flushToDisk plainLib sampleNow twoChunks.2 =
      (NewLogStorage "data".toList, twoChunks.2) :=
  ⟨rfl, (flush_empty_noop_idempotent plainLib sampleNow sampleNow (NewLogStorage "data".toList)
    twoChunks.2).1 rfl⟩

/-- After a sequence of `Append` calls the buffer is extended by the entries; the configuration is unchanged. -/
theorem appendMany_state (s : LogStorage) (logs : List LogEntry) :
    (appendMany s logs).1.memoryBuffer = s.memoryBuffer ++ logs ∧
    (appendMany s logs).1.maxBufferSize = s.maxBufferSize ∧
    (appendMany s logs).1.dataDir = s.dataDir := by
  induction logs generalizing s with
  | nil => simp [appendMany]
  | cons log rest ih =>
    obtain ⟨h1, h2, h3⟩ := ih (s.Append log).1
    simp only [appendMany]
    refine ⟨?_, ?_, ?_⟩
    · rw [h1]
      simp [LogStorage.Append]
    · rw [h2]
      rfl
    · rw [h3]
      rfl

/-- When the appended entries fill the buffer exactly to `maxBufferSize`, only the last call requests a compaction. -/
theorem appendMany_flags (M : Int) (logs : List LogEntry) :
    ∀ s : LogStorage, s.maxBufferSize = M → logs ≠ [] →
      ((s.memoryBuffer.length : Int) + (logs.length : Int) = M) →
      (appendMany s logs).2 = List.replicate (logs.length - 1) false ++ [true] := by
  induction logs with
  | nil => intro s _ h; exact absurd rfl h
  | cons log rest ih =>
    intro s hmax _ hlen
    simp only [appendMany]
    by_cases hrest : rest = []
    · subst hrest
      simp only [List.length_singleton, Nat.cast_one] at hlen
      simp [appendMany, LogStorage.Append, hmax]
      omega
    · have hlen1 : (((s.Append log).1.memoryBuffer.length : Int) + (rest.length : Int) = M) := by
        simp only [LogStorage.Append, List.length_append, List.length_singleton, Nat.cast_add,
          Nat.cast_one]
        simp only [List.length_cons, Nat.cast_add, Nat.cast_one] at hlen
        omega
      rw [ih (s.Append log).1 hmax hrest hlen1]
      have hpos : 0 < rest.length := List.length_pos.mpr hrest
      have hflag : (s.Append log).2 = false := by
        simp only [LogStorage.Append, List.length_append, List.length_singleton, hmax,
          decide_eq_false_iff_not, not_le, ge_iff_le]
        simp only [List.length_cons, Nat.cast_add, Nat.cast_one] at hlen
        push_cast
        omega
      rw [hflag]
      have h1 : (log :: rest).length - 1 = (rest.length - 1) + 1 := by
        simp only [List.length_cons]
        omega
      rw [h1, List.replicate_succ, List.cons_append]

/-- C16: from an empty buffer with `maxBufferSize = M ≥ 1`, of `M` consecutive
`Append` calls the first `M - 1` request no compaction and the last one does;
the buffer then holds the `M` entries in append order, and `flushToDisk` run at
that point leaves the buffer empty and writes one chunk, the batch of these
`M` entries, to the hour file. -/
theorem buffer_threshold (lib : Lib) (now : Now) (s : LogStorage) (disk : Disk) (M : Int)
    (logs : List LogEntry) (hM : 1 ≤ M) (hbuf : s.memoryBuffer = [])
    (hmax : s.maxBufferSize = M) (hlen : (logs.length : Int) = M) :
    (appendMany s logs).2 = List.replicate (logs.length - 1) false ++ [true] ∧
    (appendMany s logs).1.memoryBuffer = logs ∧
    ((appendMany s logs).1.flushToDisk lib now disk).1.memoryBuffer = [] ∧
    ((appendMany s logs).1.flushToDisk lib now disk).2 =
      writeBatch lib s.dataDir disk (now, logs) := by
  have hne : logs ≠ [] := by
    intro h0
    rw [h0] at hlen
    simp at hlen
    omega
  obtain ⟨hb, -, hd⟩ := appendMany_state s logs
  rw [hbuf, List.nil_append] at hb
  refine ⟨appendMany_flags M logs s hmax hne (by simp [hbuf, hlen]), hb,
    flushToDisk_buffer lib now _ disk, ?_⟩
  have hlen0 : ¬ (appendMany s logs).1.memoryBuffer.length = 0 := by
    rw [hb]
    exact fun h => hne (List.length_eq_zero.mp h)
  unfold LogStorage.flushToDisk
  rw [if_neg hlen0]
  simp only [writeBatch, hb, hd]

/-- Instance of C16: `maxBufferSize = 2` and two entries. -/
theorem buffer_threshold_witness :
    (1 : Int) ≤ 2 ∧
    ({ NewLogStorage "data".toList with maxBufferSize := 2 } : LogStorage).memoryBuffer = [] ∧
    (appendMany { NewLogStorage "data".toList with maxBufferSize := 2 }
      [sampleEntry, laterEntry]).2 = [false, true] ∧
    ((appendMany { NewLogStorage "data".toList with maxBufferSize := 2 }
      [sampleEntry, laterEntry]).1.flushToDisk plainLib sampleNow []).2 =
      writeBatch plainLib "data".toList [] (sampleNow, [sampleEntry, laterEntry]) :=
  ⟨by decide, rfl,
    (buffer_threshold plainLib sampleNow { NewLogStorage "data".toList with maxBufferSize := 2 }
      [] 2 [sampleEntry, laterEntry] (by decide) rfl rfl (by decide)).1,
    (buffer_threshold plainLib sampleNow { NewLogStorage "data".toList with maxBufferSize := 2 }
      [] 2 [sampleEntry, laterEntry] (by decide) rfl rfl (by decide)).2.2.2⟩

/-! ## Bracket extraction and the filter verdict of the two tiers -/

/-- The line that `flushToDisk` writes for an entry is its header line and a newline. -/
theorem renderLine_eq (log : LogEntry) :
    renderLine log = headerLine log.Timestamp log.Level log.Server log.Message ++ ['\n'] := by
  simp [renderLine, headerLine]

/-- The loop of `extractBracket` passes over characters that are no brackets. -/
theorem extractBracketLoop_skip (s : Str) (index : Int) (seg rest : Str) (i : Nat)
    (count start : Int) (hseg : ∀ c ∈ seg, c ≠ '[' ∧ c ≠ ']') :
    extractBracketLoop s index (seg ++ rest) i count start =
      extractBracketLoop s index rest (i + seg.length) count start := by
  induction seg generalizing i with
  | nil => simp
  | cons c seg ih =>
    have hc := hseg c (List.mem_cons_self _ _)
    have hrest : ∀ d ∈ seg, d ≠ '[' ∧ d ≠ ']' := fun d hd => hseg d (List.mem_cons_of_mem _ hd)
    rw [List.cons_append, extractBracketLoop, if_neg hc.1, if_neg (fun h => hc.2 h.1), ih (i + 1) hrest]
    congr 1
    simp only [List.length_cons]
    omega

/-- The loop of `extractBracket` passes over a bracketed field that comes before
the wanted one. -/
theorem extractBracketLoop_pass (s : Str) (index : Int) (seg rest : Str) (i : Nat)
    (count : Int) (hseg : ∀ c ∈ seg, c ≠ '[' ∧ c ≠ ']') (hcount : count ≠ index) :
    extractBracketLoop s index ('[' :: (seg ++ ']' :: ' ' :: rest)) i count (-1) =
      extractBracketLoop s index rest (i + seg.length + 3) (count + 1) (-1) := by
  rw [extractBracketLoop, if_pos rfl, if_neg hcount, extractBracketLoop_skip s index seg _ _ _ _ hseg,
    extractBracketLoop, if_neg (by decide), if_neg (fun h => h.2 rfl),
    extractBracketLoop, if_neg (by decide), if_neg (fun h => absurd h.1 (by decide))]
  congr 1
  omega

/-- The loop of `extractBracket` returns the wanted field when it reaches it. -/
theorem extractBracketLoop_found (s : Str) (index : Int) (seg rest : Str) (i : Nat)
    (hseg : ∀ c ∈ seg, c ≠ '[' ∧ c ≠ ']') :
    extractBracketLoop s index ('[' :: (seg ++ ']' :: rest)) i index (-1) =
      slice s ((i : Int) + 1) ((i + 1 + seg.length : Nat) : Int) := by
  rw [extractBracketLoop, if_pos rfl, if_pos rfl, extractBracketLoop_skip s index seg _ _ _ _ hseg,
    extractBracketLoop, if_neg (by decide), if_pos ⟨rfl, by omega⟩]

/-- The slice of a string between the end of a prefix and the end of the part
that follows it. -/
theorem slice_middle (pre mid post : Str) (lo hi : Int) (hlo : lo = (pre.length : Int))
    (hhi : hi = ((pre.length + mid.length : Nat) : Int)) :
    slice (pre ++ (mid ++ post)) lo hi = mid := by
  subst hlo hhi
  have h1 : (((pre.length + mid.length : Nat) : Int)).toNat - ((pre.length : Int)).toNat =
      mid.length := by omega
  unfold slice
  rw [h1, Int.toNat_ofNat, List.drop_left, List.take_left]

/-- C18: when timestamp, level and server contain no bracket, `parseLogLine`
applied to the line `[timestamp] [level] [server] message` returns an entry
with this timestamp, level and server, that is `extractBracket(line, 0)`,
`extractBracket(line, 1)` and `extractBracket(line, 2)` return the three
fields; the message may hold any characters, brackets included. -/
theorem header_fields_recovered (timestamp level server message : Str)
    (hts : ∀ c ∈ timestamp, c ≠ '[' ∧ c ≠ ']') (hlv : ∀ c ∈ level, c ≠ '[' ∧ c ≠ ']')
    (hsv : ∀ c ∈ server, c ≠ '[' ∧ c ≠ ']') :
    extractBracket (headerLine timestamp level server message) 0 = timestamp ∧
    extractBracket (headerLine timestamp level server message) 1 = level ∧
    extractBracket (headerLine timestamp level server message) 2 = server ∧
    (parseLogLine (headerLine timestamp level server message)).Timestamp = timestamp ∧
    (parseLogLine (headerLine timestamp level server message)).Level = level ∧
    (parseLogLine (headerLine timestamp level server message)).Server = server := by
  have h0 : extractBracket (headerLine timestamp level server message) 0 = timestamp := by
    unfold extractBracket
    rw [show headerLine timestamp level server message = '[' :: (timestamp ++ ']' ::
      (' ' :: '[' :: (level ++ ']' :: ' ' :: '[' :: (server ++ ']' :: ' ' :: message)))) from rfl]
    rw [extractBracketLoop_found _ 0 timestamp _ 0 hts]
    exact slice_middle ['['] timestamp _ _ _ (by simp) (by simp)
  have h1 : extractBracket (headerLine timestamp level server message) 1 = level := by
    unfold extractBracket
    rw [show headerLine timestamp level server message = '[' :: (timestamp ++ ']' :: ' ' ::
      ('[' :: (level ++ ']' :: (' ' :: '[' :: (server ++ ']' :: ' ' :: message))))) from rfl]
    rw [extractBracketLoop_pass _ 1 timestamp _ 0 0 hts (by decide),
      show (0 : Int) + 1 = 1 from rfl, extractBracketLoop_found _ 1 level _ _ hlv]
    have hline : '[' :: (timestamp ++ ']' :: ' ' ::
        ('[' :: (level ++ ']' :: (' ' :: '[' :: (server ++ ']' :: ' ' :: message))))) =
        ('[' :: (timestamp ++ [']', ' ', '['])) ++ (level ++
          (']' :: ' ' :: '[' :: (server ++ ']' :: ' ' :: message))) := by
      simp
    rw [hline]
    exact slice_middle _ level _ _ _ (by simp) (by simp)
  have h2 : extractBracket (headerLine timestamp level server message) 2 = server := by
    unfold extractBracket
    rw [show headerLine timestamp level server message = '[' :: (timestamp ++ ']' :: ' ' ::
      ('[' :: (level ++ ']' :: ' ' :: ('[' :: (server ++ ']' :: (' ' :: message)))))) from rfl]
    rw [extractBracketLoop_pass _ 2 timestamp _ 0 0 hts (by decide),
      extractBracketLoop_pass _ 2 level _ _ _ hlv (by decide),
      show (0 : Int) + 1 + 1 = 2 from rfl, extractBracketLoop_found _ 2 server _ _ hsv]
    have hline : '[' :: (timestamp ++ ']' :: ' ' ::
        ('[' :: (level ++ ']' :: ' ' :: ('[' :: (server ++ ']' :: (' ' :: message)))))) =
        ('[' :: (timestamp ++ ']' :: ' ' :: '[' :: (level ++ [']', ' ', '[']))) ++ (server ++
          (']' :: ' ' :: message)) := by
      simp
    rw [hline]
    exact slice_middle _ server _ _ _ (by simp; omega) (by simp; omega)
  exact ⟨h0, h1, h2, h0, h1, h2⟩

/-- Instance of C18: the header fields of `sampleEntry`, with a message that holds brackets. -/
theorem header_fields_recovered_witness :
    (∀ c ∈ sampleEntry.Timestamp, c ≠ '[' ∧ c ≠ ']') ∧
    (∀ c ∈ sampleEntry.Level, c ≠ '[' ∧ c ≠ ']') ∧
    (∀ c ∈ sampleEntry.Server, c ≠ '[' ∧ c ≠ ']') ∧
    (parseLogLine (headerLine sampleEntry.Timestamp sampleEntry.Level sampleEntry.Server
      "retry [3] of [5]".toList)).Server = sampleEntry.Server :=
  ⟨by decide, by decide, by decide,
    (header_fields_recovered sampleEntry.Timestamp sampleEntry.Level sampleEntry.Server
      "retry [3] of [5]".toList (by decide) (by decide) (by decide)).2.2.2.2.2⟩

/-- C20, evaluated on `sampleEntry` with the keyword `2024`: the entry in the
buffer is rejected, since the keyword occurs in none of message, level and
server; the entry parsed from its line in a chunk is accepted, since its
message is the whole line, which begins with the timestamp. -/
theorem filter_verdict_differs_between_tiers :
    matchLogWithFilters plainLib sampleEntry "2024".toList [] [] = false ∧
    matchLogWithFilters plainLib
      (parseLogLine (headerLine sampleEntry.Timestamp sampleEntry.Level sampleEntry.Server
        sampleEntry.Message)) "2024".toList [] [] = true ∧
    (oneChunkOneBuffered.1.Query plainLib sampleNow oneChunkOneBuffered.2 "2024".toList [] [] 10).map
      (fun e => e.Timestamp) = [sampleEntry.Timestamp] := by
  decide

/-! ## Chunk framing -/

/-- The lines of a piece are the non-empty lines of its decompressed payload. -/
theorem pieceLines_eq_payload (lib : Lib) (chunk : Str) :
    pieceLines lib chunk =
      match chunkPayload chunk with
      | none => []
      | some payload =>
        match lib.lz4Decompress payload with
        | none => []
        | some decompressed =>
          (splitOn decompressed "\n".toList).reverse.filter (fun l => decide (l ≠ [])) := by
  unfold pieceLines chunkPayload
  by_cases h0 : chunk.length = 0
  · simp [h0]
  · simp only [if_neg h0]
    cases indexNewline chunk <;> rfl

/-- The characters of the chunk separator. -/
theorem sep_chars : "===CHUNK_".toList = ['=', '=', '=', 'C', 'H', 'U', 'N', 'K', '_'] := rfl

/-- A decimal digit is neither `=` nor a newline. -/
theorem digit_char (d : Nat) (hd : d < 10) :
    Char.ofNat (48 + d) ≠ '=' ∧ Char.ofNat (48 + d) ≠ '\n' := by
  interval_cases d <;> decide

/-- The digits of a number hold neither `=` nor a newline. -/
theorem natDigits_chars (fuel n : Nat) :
    ∀ c ∈ natDigits fuel n, c ≠ '=' ∧ c ≠ '\n' := by
  induction fuel generalizing n with
  | zero => simp [natDigits]
  | succ fuel ih =>
    intro c hc
    unfold natDigits at hc
    by_cases hn : n < 10
    · rw [if_pos hn] at hc
      rw [List.mem_singleton] at hc
      rw [hc]
      exact digit_char n hn
    · rw [if_neg hn] at hc
      rcases List.mem_append.mp hc with h | h
      · exact ih (n / 10) c h
      · rw [List.mem_singleton] at h
        rw [h]
        exact digit_char (n % 10) (Nat.mod_lt _ (by decide))

/-- The text of a stamp holds neither `=` nor a newline. -/
theorem fmtInt_chars (n : Int) : ∀ c ∈ fmtInt n, c ≠ '=' ∧ c ≠ '\n' := by
  intro c hc
  unfold fmtInt at hc
  by_cases hn : n < 0
  · rw [if_pos hn] at hc
    rcases List.mem_cons.mp hc with h | h
    · rw [h]
      decide
    · exact natDigits_chars _ _ c h
  · rw [if_neg hn] at hc
    exact natDigits_chars _ _ c hc

/-- The split passes over characters other than `=`. -/
theorem splitAux_skip (x rest cur : Str) (hx : ∀ c ∈ x, c ≠ '=') :
    splitAux "===CHUNK_".toList (x ++ rest) 0 cur =
      splitAux "===CHUNK_".toList rest 0 (x.reverse ++ cur) := by
  induction x generalizing cur with
  | nil => simp
  | cons c x ih =>
    have hc : c ≠ '=' := hx c (List.mem_cons_self _ _)
    have hpre : ("===CHUNK_".toList).isPrefixOf (c :: (x ++ rest)) = false := by
      simp [sep_chars, List.isPrefixOf, Ne.symm hc]
    rw [List.cons_append, splitAux, if_neg (by rw [hpre]; simp),
      ih (c :: cur) (fun d hd => hx d (List.mem_cons_of_mem _ hd))]
    simp

/-- The split passes over the end `===` and newline of a separator line. -/
theorem splitAux_trailer (rest cur : Str) :
    splitAux "===CHUNK_".toList ("===\n".toList ++ rest) 0 cur =
      splitAux "===CHUNK_".toList rest 0 ("===\n".toList.reverse ++ cur) := by
  have h : "===\n".toList = ['=', '=', '=', '\n'] := rfl
  simp [h, sep_chars, splitAux, List.isPrefixOf]

/-- At a separator the split closes the current piece and resumes behind the
separator. -/
theorem splitAux_sep (rest cur : Str) :
    splitAux "===CHUNK_".toList ("===CHUNK_".toList ++ rest) 0 cur =
      cur.reverse :: splitAux "===CHUNK_".toList rest 0 [] := by
  simp [sep_chars, splitAux, List.isPrefixOf]

/-- No proper end of the separator is a beginning of the separator. -/
theorem sep_no_border (k : Nat) (h1 : 1 ≤ k) (h8 : k ≤ 8) :
    ("===CHUNK_".toList).drop k ≠ ("===CHUNK_".toList).take (9 - k) := by
  interval_cases k <;> decide

/-- A non-empty payload without separator, followed by nothing or by a
separator, does not begin with a separator. -/
theorem no_sep_at_payload (p follow : Str) (hp : p ≠ [])
    (hfree : ¬ "===CHUNK_".toList <:+: p)
    (hfollow : follow = [] ∨ ∃ more, follow = "===CHUNK_".toList ++ more) :
    ¬ "===CHUNK_".toList <+: p ++ follow := by
  rintro ⟨t, ht⟩
  rcases List.append_eq_append_iff.mp ht with ⟨a, hpa, -⟩ | ⟨c, hsc, hfc⟩
  · exact hfree (hpa ▸ (List.prefix_append _ _).isInfix)
  · have hlen : p.length + c.length = 9 := by
      have := congrArg List.length hsc
      simp only [List.length_append] at this
      rw [← this]
      rfl
    have hppos : 1 ≤ p.length := List.length_pos.mpr hp
    by_cases hc : c = []
    · subst hc
      rw [List.append_nil] at hsc
      exact hfree (hsc ▸ List.infix_refl _)
    · have hcpos : 1 ≤ c.length := List.length_pos.mpr hc
      rcases hfollow with h0 | ⟨more, hmore⟩
      · rw [h0] at hfc
        have := congrArg List.length hfc
        simp only [List.length_nil, List.length_append] at this
        omega
      · rw [hmore] at hfc
        have hdrop : ("===CHUNK_".toList).drop p.length = c := by
          rw [hsc, List.drop_left]
        have htake : ("===CHUNK_".toList).take (9 - p.length) = c := by
          have h2 := congrArg (List.take c.length) hfc
          rw [List.take_left, List.take_append_of_le_length (by
            show c.length ≤ ("===CHUNK_".toList).length
            have : ("===CHUNK_".toList).length = 9 := rfl
            omega)] at h2
          have h3 : 9 - p.length = c.length := by omega
          rw [h3]
          exact h2
        exact sep_no_border p.length hppos (by omega) (hdrop.trans htake.symm)

/-- The split passes over a payload without separator. -/
theorem splitAux_payload (p follow cur : Str) (hfree : ¬ "===CHUNK_".toList <:+: p)
    (hfollow : follow = [] ∨ ∃ more, follow = "===CHUNK_".toList ++ more) :
    splitAux "===CHUNK_".toList (p ++ follow) 0 cur =
      splitAux "===CHUNK_".toList follow 0 (p.reverse ++ cur) := by
  induction p generalizing cur with
  | nil => simp
  | cons c p ih =>
    have hno := no_sep_at_payload (c :: p) follow (List.cons_ne_nil _ _) hfree hfollow
    have hpre : ¬ ("===CHUNK_".toList).isPrefixOf (c :: (p ++ follow)) = true := by
      intro h
      exact hno (List.isPrefixOf_iff_prefix.mp h)
    have hfree1 : ¬ "===CHUNK_".toList <:+: p := by
      intro h
      exact hfree (h.trans (List.suffix_cons c p).isInfix)
    rw [List.cons_append, splitAux, if_neg hpre, ih (c :: cur) hfree1]
    simp

/-- The pieces of a framed file: one empty piece, then for every chunk the rest
of its separator line followed by its payload. -/
theorem splitAux_frameFile (chunks : List (Int × Str))
    (hfree : ∀ c ∈ chunks, ¬ "===CHUNK_".toList <:+: c.2) (cur : Str) :
    splitAux "===CHUNK_".toList (frameFile chunks) 0 cur =
      cur.reverse :: chunks.map (fun c => fmtInt c.1 ++ "===\n".toList ++ c.2) := by
  induction chunks generalizing cur with
  | nil => simp [frameFile, splitAux]
  | cons c rest ih =>
    have hrest : ∀ d ∈ rest, ¬ "===CHUNK_".toList <:+: d.2 :=
      fun d hd => hfree d (List.mem_cons_of_mem _ hd)
    have hfile : frameFile (c :: rest) =
        "===CHUNK_".toList ++ (fmtInt c.1 ++ ("===\n".toList ++ (c.2 ++ frameFile rest))) := by
      simp [frameFile, separator, List.append_assoc]
    have hfollow : frameFile rest = [] ∨ ∃ more, frameFile rest = "===CHUNK_".toList ++ more := by
      cases rest with
      | nil => exact Or.inl rfl
      | cons d rest2 =>
        right
        exact ⟨fmtInt d.1 ++ ("===\n".toList ++ (d.2 ++ frameFile rest2)), by
          simp [frameFile, separator, List.append_assoc]⟩
    rw [hfile, splitAux_sep, splitAux_skip _ _ _ (fun d hd => (fmtInt_chars c.1 d hd).1),
      splitAux_trailer, splitAux_payload _ _ _ (hfree c (List.mem_cons_self _ _)) hfollow,
      ih hrest]
    simp

/-- The position of the first newline of a text that has none before it. -/
theorem indexNewline_append (x rest : Str) (hx : ∀ c ∈ x, c ≠ '\n') :
    indexNewline (x ++ '\n' :: rest) = some x.length := by
  induction x with
  | nil => simp [indexNewline]
  | cons c x ih =>
    have hc : c ≠ '\n' := hx c (List.mem_cons_self _ _)
    rw [List.cons_append, indexNewline, if_neg hc, ih (fun d hd => hx d (List.mem_cons_of_mem _ hd))]
    simp

/-- The payload of a piece that is the rest of a separator line and a payload. -/
theorem chunkPayload_piece (stamp : Int) (p : Str) :
    chunkPayload (fmtInt stamp ++ "===\n".toList ++ p) = some p := by
  have hpiece : fmtInt stamp ++ "===\n".toList ++ p =
      (fmtInt stamp ++ ['=', '=', '=']) ++ '\n' :: p := by
    have h : "===\n".toList = ['=', '=', '=', '\n'] := rfl
    simp [h]
  have hidx := indexNewline_append (fmtInt stamp ++ ['=', '=', '=']) p (by
    intro c hc
    rcases List.mem_append.mp hc with h | h
    · exact (fmtInt_chars stamp c h).2
    · simp at h
      rw [h]
      decide)
  rw [hpiece]
  unfold chunkPayload
  rw [if_neg (by simp), hidx]
  have h2 : (fmtInt stamp ++ ['=', '=', '=']) ++ '\n' :: p =
      ((fmtInt stamp ++ ['=', '=', '=']) ++ ['\n']) ++ p := by
    simp
  simp only [Option.some.injEq]
  rw [h2]
  exact List.drop_left' (by simp)

/-- C19: for payloads none of which contains `===CHUNK_` and for any stamps, the
file that holds, chunk after chunk, the line `===CHUNK_<stamp>===` and the
payload is taken apart by `queryDisk` (split on `===CHUNK_`, skip the empty
pieces, drop each piece up to and including its first newline) into exactly
these payloads, in file order. -/
theorem chunk_framing_recovered (chunks : List (Int × Str))
    (hfree : ∀ c ∈ chunks, ¬ "===CHUNK_".toList <:+: c.2) :
    filePayloads (frameFile chunks) = chunks.map (fun c => c.2) := by
  unfold filePayloads splitOn
  rw [splitAux_frameFile chunks hfree []]
  have hfirst : chunkPayload ([] : Str).reverse = none := by
    simp [chunkPayload]
  rw [List.filterMap_cons_none hfirst]
  clear hfree
  induction chunks with
  | nil => rfl
  | cons c rest ih =>
    rw [List.map_cons, List.filterMap_cons_some (chunkPayload_piece c.1 c.2), ih]
    rfl

/-- Instance of C19: the hour file of `twoChunks`, written by two calls of
`flushToDisk`, is the framed file of its two chunks and is taken apart into
their texts. -/
theorem chunk_framing_recovered_witness :
    (∀ c ∈ sampleChunks, ¬ "===CHUNK_".toList <:+: c.2) ∧
    readFile twoChunks.2 (hourFileName "data".toList sampleNow.hour) =
      some (frameFile sampleChunks) ∧
    filePayloads (frameFile sampleChunks) = sampleChunks.map (fun c => c.2) :=
  ⟨by decide, by decide, chunk_framing_recovered sampleChunks (by decide)⟩

/-! ## Listing of the server status -/

/-- The order on strings, character by character. -/
theorem strLt_cons (a b : Char) (as bs : Str) :
    strLt (a :: as) (b :: bs) = true ↔ a < b ∨ (a = b ∧ strLt as bs = true) := by
  show (if a < b then true else if b < a then false else strLt as bs) = true ↔ _
  rcases lt_trichotomy a b with h | h | h
  · simp [h]
  · subst h
    simp
  · have h1 : ¬ a < b := not_lt.mpr (le_of_lt h)
    have h2 : a ≠ b := fun e => by subst e; exact lt_irrefl _ h
    simp [h, h1, h2]

/-- No string is less than itself. -/
theorem strLt_irrefl (a : Str) : strLt a a = false := by
  induction a with
  | nil => rfl
  | cons c as ih =>
    cases hlt : strLt (c :: as) (c :: as) with
    | false => rfl
    | true =>
      rcases (strLt_cons c c as as).mp hlt with h | ⟨-, h⟩
      · exact absurd h (lt_irrefl _)
      · rw [ih] at h
        exact absurd h (by decide)

/-- The order on strings is transitive. -/
theorem strLt_trans (a b c : Str) (hab : strLt a b = true) (hbc : strLt b c = true) :
    strLt a c = true := by
  induction a generalizing b c with
  | nil =>
    cases c with
    | nil => cases b <;> simp [strLt] at hbc
    | cons z cs => rfl
  | cons x as ih =>
    cases b with
    | nil => simp [strLt] at hab
    | cons y bs =>
      cases c with
      | nil => simp [strLt] at hbc
      | cons z cs =>
        rw [strLt_cons] at hab hbc ⊢
        rcases hab with h1 | ⟨h1, h1s⟩
        · rcases hbc with h2 | ⟨h2, -⟩
          · exact Or.inl (lt_trans h1 h2)
          · exact Or.inl (h2 ▸ h1)
        · rcases hbc with h2 | ⟨h2, h2s⟩
          · exact Or.inl (h1 ▸ h2)
          · exact Or.inr ⟨h1.trans h2, ih bs cs h1s h2s⟩

/-- Two different strings are ordered one way or the other. -/
theorem strLt_total (a b : Str) (hne : a ≠ b) : strLt a b = true ∨ strLt b a = true := by
  induction a generalizing b with
  | nil =>
    cases b with
    | nil => exact absurd rfl hne
    | cons y bs => exact Or.inl rfl
  | cons x as ih =>
    cases b with
    | nil => exact Or.inr rfl
    | cons y bs =>
      rw [strLt_cons, strLt_cons]
      rcases lt_trichotomy x y with h | h | h
      · exact Or.inl (Or.inl h)
      · subst h
        have hne1 : as ≠ bs := fun e => hne (by rw [e])
        rcases ih bs hne1 with h1 | h1
        · exact Or.inl (Or.inr ⟨rfl, h1⟩)
        · exact Or.inr (Or.inr ⟨rfl, h1⟩)
      · exact Or.inr (Or.inl h)

/-- The elements of a list after an insertion. -/
theorem mem_insertByServer (x y : ServerStatus) (l : List ServerStatus) :
    y ∈ insertByServer x l ↔ y = x ∨ y ∈ l := by
  induction l with
  | nil => simp [insertByServer]
  | cons z zs ih =>
    unfold insertByServer
    split_ifs
    · simp
    · simp only [List.mem_cons, ih]
      tauto

/-- The elements of a sorted list are those of the list. -/
theorem mem_sortByServer (y : ServerStatus) (l : List ServerStatus) :
    y ∈ sortByServer l ↔ y ∈ l := by
  induction l with
  | nil => simp [sortByServer]
  | cons x xs ih => simp [sortByServer, mem_insertByServer, ih]

/-- Insertion of a record with a new name keeps a list strictly increasing. -/
theorem insertByServer_sorted (x : ServerStatus) (l : List ServerStatus)
    (hsorted : l.Pairwise (fun a b => strLt a.Server b.Server = true))
    (hnew : ∀ y ∈ l, x.Server ≠ y.Server) :
    (insertByServer x l).Pairwise (fun a b => strLt a.Server b.Server = true) := by
  induction l with
  | nil => simp [insertByServer]
  | cons z zs ih =>
    obtain ⟨hz, hzs⟩ := List.pairwise_cons.mp hsorted
    unfold insertByServer
    by_cases hlt : strLt x.Server z.Server = true
    · rw [if_pos hlt]
      refine List.pairwise_cons.mpr ⟨?_, hsorted⟩
      intro y hy
      rcases List.mem_cons.mp hy with rfl | hy
      · exact hlt
      · exact strLt_trans _ _ _ hlt (hz y hy)
    · rw [if_neg hlt]
      have hzx : strLt z.Server x.Server = true := by
        rcases strLt_total x.Server z.Server (hnew z (List.mem_cons_self _ _)) with h | h
        · exact absurd h hlt
        · exact h
      refine List.pairwise_cons.mpr ⟨?_, ih hzs (fun y hy => hnew y (List.mem_cons_of_mem _ hy))⟩
      intro y hy
      rcases (mem_insertByServer x y zs).mp hy with rfl | hy
      · exact hzx
      · exact hz y hy

/-- Sorting records with pairwise different names gives a strictly increasing list. -/
theorem sortByServer_sorted (l : List ServerStatus) (hnodup : (l.map (fun s => s.Server)).Nodup) :
    (sortByServer l).Pairwise (fun a b => strLt a.Server b.Server = true) := by
  induction l with
  | nil => simp [sortByServer]
  | cons x xs ih =>
    rw [List.map_cons, List.nodup_cons] at hnodup
    unfold sortByServer
    refine insertByServer_sorted x _ (ih hnodup.2) ?_
    intro y hy hxy
    rw [mem_sortByServer] at hy
    exact hnodup.1 (hxy ▸ List.mem_map_of_mem (fun s => s.Server) hy)

/-- A lookup that succeeds finds a pair of the map. -/
theorem mapGet_some_mem {α : Type} (m : GoMap α) (k : Str) (v : α)
    (h : mapGet m k = some v) : (k, v) ∈ m := by
  induction m with
  | nil => exact absurd h (by rw [mapGet]; exact Option.noConfusion)
  | cons p rest ih =>
    obtain ⟨a, w⟩ := p
    by_cases hak : a = k
    · rw [mapGet, if_pos hak] at h
      have hw : w = v := Option.some.inj h
      rw [hak, hw]
      exact List.mem_cons_self _ _
    · rw [mapGet, if_neg hak] at h
      exact List.mem_cons_of_mem _ (ih h)

/-- A lookup fails exactly for the names that are no key. -/
theorem mapGet_none_iff {α : Type} (m : GoMap α) (k : Str) :
    mapGet m k = none ↔ k ∉ m.map Prod.fst := by
  induction m with
  | nil =>
    rw [mapGet, List.map_nil]
    exact ⟨fun _ => List.not_mem_nil k, fun _ => rfl⟩
  | cons p rest ih =>
    obtain ⟨a, w⟩ := p
    rw [List.map_cons, List.mem_cons]
    by_cases hak : a = k
    · rw [mapGet, if_pos hak]
      constructor
      · intro h
        exact Option.noConfusion h
      · intro h
        exact absurd (Or.inl hak.symm) h
    · rw [mapGet, if_neg hak, ih]
      constructor
      · intro h hor
        rcases hor with h1 | h1
        · exact hak h1.symm
        · exact h h1
      · intro h h1
        exact h (Or.inr h1)

/-- In a map without repeated key, the lookup of the key of a pair finds its value. -/
theorem mapGet_of_mem {α : Type} (m : GoMap α) (k : Str) (v : α)
    (hnodup : (m.map Prod.fst).Nodup) (h : (k, v) ∈ m) : mapGet m k = some v := by
  induction m with
  | nil => exact absurd h (List.not_mem_nil _)
  | cons p rest ih =>
    obtain ⟨a, w⟩ := p
    rw [List.map_cons, List.nodup_cons] at hnodup
    rcases List.mem_cons.mp h with heq | hmem
    · have h1 : k = a := congrArg Prod.fst heq
      have h2 : v = w := congrArg Prod.snd heq
      rw [mapGet, if_pos h1.symm, h2]
    · have hak : a ≠ k := by
        intro e
        exact hnodup.1 (List.mem_map.mpr ⟨(k, v), hmem, e.symm⟩)
      rw [mapGet, if_neg hak]
      exact ih hnodup.2 hmem

/-- The pairs of a map after an assignment. -/
theorem mem_mapSet {α : Type} (m : GoMap α) (k : Str) (v : α) (p : Str × α)
    (h : p ∈ mapSet m k v) : p = (k, v) ∨ p ∈ m := by
  induction m with
  | nil =>
    rw [mapSet, List.mem_singleton] at h
    exact Or.inl h
  | cons q rest ih =>
    obtain ⟨a, w⟩ := q
    by_cases hak : a = k
    · rw [mapSet, if_pos hak, List.mem_cons] at h
      rcases h with h1 | h1
      · exact Or.inl (by rw [h1, hak])
      · exact Or.inr (List.mem_cons_of_mem _ h1)
    · rw [mapSet, if_neg hak, List.mem_cons] at h
      rcases h with h1 | h1
      · exact Or.inr (by rw [h1]; exact List.mem_cons_self _ _)
      · rcases ih h1 with h2 | h2
        · exact Or.inl h2
        · exact Or.inr (List.mem_cons_of_mem _ h2)

/-- The keys of a map after an assignment. -/
theorem mapSet_keys {α : Type} (m : GoMap α) (k : Str) (v : α) :
    (mapSet m k v).map Prod.fst =
      if k ∈ m.map Prod.fst then m.map Prod.fst else m.map Prod.fst ++ [k] := by
  induction m with
  | nil =>
    rw [mapSet, List.map_nil, if_neg (List.not_mem_nil k)]
    rfl
  | cons q rest ih =>
    obtain ⟨a, w⟩ := q
    by_cases hak : a = k
    · rw [mapSet, if_pos hak, List.map_cons, List.map_cons,
        if_pos (List.mem_cons.mpr (Or.inl hak.symm))]
    · rw [mapSet, if_neg hak, List.map_cons, List.map_cons, ih]
      by_cases hmem : k ∈ rest.map Prod.fst
      · rw [if_pos hmem, if_pos (List.mem_cons.mpr (Or.inr hmem))]
      · have hnot : ¬ k ∈ (a, w).1 :: rest.map Prod.fst := by
          intro h
          rcases List.mem_cons.mp h with h1 | h1
          · exact hak h1.symm
          · exact hmem h1
        rw [if_neg hmem, if_neg hnot]
        rfl

/-- The status table after an accepted `Append`: the record of the host is
assigned, with the name of the host as its `Server`, provided the records
already in the table are under their own names. -/
theorem Append_statusTable (lib : Lib) (clock : Clock) (m m1 : MetricsStorage)
    (entry : MetricsEntry) (hs : entry.Server ≠ [])
    (hkeys : ∀ p ∈ m.serverStatus, p.2.Server = p.1)
    (happ : m.Append lib clock entry = some m1) :
    ∃ st : ServerStatus, st.Server = entry.Server ∧
      m1.serverStatus = mapSet m.serverStatus entry.Server st := by
  have hupd : ∀ m0 : MetricsStorage, m0.serverStatus = m.serverStatus →
      ∃ st : ServerStatus, st.Server = entry.Server ∧
        (m0.updateServerStatus lib clock entry.Server entry).serverStatus =
          mapSet m.serverStatus entry.Server st := by
    intro m0 h0
    unfold MetricsStorage.updateServerStatus
    rw [h0]
    cases hget : mapGet m.serverStatus entry.Server with
    | none =>
      exact ⟨⟨entry.Server, "online".toList, nowText lib clock, some entry.Metrics, []⟩,
        rfl, rfl⟩
    | some status =>
      exact ⟨⟨status.Server, status.Status, nowText lib clock, some entry.Metrics,
        status.Uptime⟩, hkeys _ (mapGet_some_mem _ _ _ hget), rfl⟩
  unfold MetricsStorage.Append at happ
  simp only [hs, if_false] at happ
  cases hold : mapGet m.recentMetrics entry.Server with
  | none =>
    rw [hold] at happ
    simp only at happ
    by_cases hneg : m.maxPointsPerServer < 0
    · simp [hneg] at happ
    · simp only [hneg, if_false, Option.some.injEq] at happ
      subst happ
      exact hupd _ rfl
  | some old =>
    rw [hold] at happ
    simp only [Option.some.injEq] at happ
    subst happ
    exact hupd _ rfl

/-- One `Append` that returns keeps the status table a map keyed by the
non-empty server names of the calls. -/
theorem Append_statusTableOk (lib : Lib) (clock : Clock) (m m1 : MetricsStorage)
    (entry : MetricsEntry) (calls : List (Clock × MetricsEntry))
    (hinv : statusTableOk m calls) (happ : m.Append lib clock entry = some m1) :
    statusTableOk m1 (calls ++ [(clock, entry)]) := by
  obtain ⟨hnodup, hkeys, hdom⟩ := hinv
  by_cases hs : entry.Server = []
  · have hm : m1 = m := by
      simp only [MetricsStorage.Append, hs, if_true, Option.some.injEq] at happ
      exact happ.symm
    subst hm
    refine ⟨hnodup, hkeys, ?_⟩
    intro h
    rw [hdom h]
    constructor
    · rintro ⟨hh, c, hc, hch⟩
      exact ⟨hh, c, List.mem_append_left _ hc, hch⟩
    · rintro ⟨hh, c, hc, hch⟩
      rcases List.mem_append.mp hc with hc | hc
      · exact ⟨hh, c, hc, hch⟩
      · rw [List.mem_singleton] at hc
        subst hc
        exact absurd (hch.symm.trans hs) hh
  · obtain ⟨st, hst, htable⟩ := Append_statusTable lib clock m m1 entry hs hkeys happ
    have hk := mapSet_keys m.serverStatus entry.Server st
    refine ⟨?_, ?_, ?_⟩
    · rw [htable, hk]
      split_ifs with hmem
      · exact hnodup
      · exact List.Nodup.append hnodup (List.nodup_singleton _) (by
          intro a ha hb
          rw [List.mem_singleton] at hb
          exact hmem (hb ▸ ha))
    · intro p hp
      rw [htable] at hp
      rcases mem_mapSet _ _ _ _ hp with h | h
      · rw [h]
        exact hst
      · exact hkeys p h
    · intro h
      have hmemk : h ∈ m1.serverStatus.map Prod.fst ↔
          h ∈ m.serverStatus.map Prod.fst ∨ h = entry.Server := by
        rw [htable, hk]
        split_ifs with hmem
        · constructor
          · exact Or.inl
          · rintro (h1 | h1)
            · exact h1
            · exact h1 ▸ hmem
        · rw [List.mem_append, List.mem_singleton]
      rw [hmemk, hdom h]
      constructor
      · rintro (⟨hh, c, hc, hch⟩ | h1)
        · exact ⟨hh, c, List.mem_append_left _ hc, hch⟩
        · exact ⟨h1 ▸ hs, (clock, entry),
            List.mem_append_right _ (List.mem_singleton_self _), h1.symm⟩
      · rintro ⟨hh, c, hc, hch⟩
        rcases List.mem_append.mp hc with hc | hc
        · exact Or.inl ⟨hh, c, hc, hch⟩
        · rw [List.mem_singleton] at hc
          subst hc
          exact Or.inr hch.symm

/-- A sequence of `Append` calls that returns keeps the status table a map keyed
by the non-empty server names of the calls. -/
theorem appendAll_statusTableOk (lib : Lib) (rest : List (Clock × MetricsEntry)) :
    ∀ (m m1 : MetricsStorage) (calls : List (Clock × MetricsEntry)),
      statusTableOk m calls → appendAll lib m rest = some m1 →
      statusTableOk m1 (calls ++ rest) := by
  induction rest with
  | nil =>
    intro m m1 calls hinv hall
    simp only [appendAll, Option.some.injEq] at hall
    subst hall
    simpa using hinv
  | cons c rest ih =>
    intro m m1 calls hinv hall
    obtain ⟨clock, entry⟩ := c
    simp only [appendAll] at hall
    cases happ : m.Append lib clock entry with
    | none =>
      rw [happ] at hall
      simp at hall
    | some m2 =>
      rw [happ] at hall
      have h2 := ih m2 m1 (calls ++ [(clock, entry)])
        (Append_statusTableOk lib clock m m2 entry calls hinv happ) hall
      simpa [List.append_assoc] using h2

/-- C14: in a store reached from a fresh one by `Append` calls, `GetServerStatus`
returns one record for every non-empty server name that was appended and no
other record, no name twice; the records are in strictly increasing order of
`Server`; the `Status` of each record is `calculateServerStatus` of its host at
the time of the read, and its `LastSeen` and `Latest` are those of the record
stored for the host. -/
theorem server_status_listing (lib : Lib) (clock : Clock) (dataDir : Str) (maxPoints : Int)
    (calls : List (Clock × MetricsEntry)) (m : MetricsStorage)
    (hreach : appendAll lib (NewMetricsStorage dataDir maxPoints) calls = some m) :
    (∀ h : Str, h ∈ (m.GetServerStatus lib clock).map (fun s => s.Server) ↔
      h ≠ [] ∧ ∃ c ∈ calls, c.2.Server = h) ∧
    ((m.GetServerStatus lib clock).map (fun s => s.Server)).Nodup ∧
    (m.GetServerStatus lib clock).Pairwise (fun a b => strLt a.Server b.Server = true) ∧
    ∀ st ∈ m.GetServerStatus lib clock,
      st.Status = m.calculateServerStatus lib clock st.Server ∧
      ∃ stored, mapGet m.serverStatus st.Server = some stored ∧
        st.LastSeen = stored.LastSeen ∧ st.Latest = stored.Latest := by
  have hfresh : statusTableOk (NewMetricsStorage dataDir maxPoints) [] := by
    refine ⟨List.nodup_nil, fun p hp => absurd hp (List.not_mem_nil p), ?_⟩
    intro h
    constructor
    · intro hh
      exact absurd hh (List.not_mem_nil h)
    · rintro ⟨-, c, hc, -⟩
      exact absurd hc (List.not_mem_nil c)
  obtain ⟨hnodup, hkeys, hdom⟩ := appendAll_statusTableOk lib calls _ m [] hfresh hreach
  rw [List.nil_append] at hdom
  have hservers : (m.serverStatus.map (fun p : Str × ServerStatus =>
      ({ p.2 with Status := m.calculateServerStatus lib clock p.1 } : ServerStatus))).map
      (fun s => s.Server) = m.serverStatus.map Prod.fst := by
    rw [List.map_map]
    exact List.map_congr_left (fun p hp => hkeys p hp)
  have hsorted : (m.GetServerStatus lib clock).Pairwise
      (fun a b => strLt a.Server b.Server = true) := by
    unfold MetricsStorage.GetServerStatus
    exact sortByServer_sorted _ (hservers ▸ hnodup)
  have hmem : ∀ st, st ∈ m.GetServerStatus lib clock ↔
      ∃ p ∈ m.serverStatus,
        ({ p.2 with Status := m.calculateServerStatus lib clock p.1 } : ServerStatus) = st := by
    intro st
    unfold MetricsStorage.GetServerStatus
    rw [mem_sortByServer, List.mem_map]
  refine ⟨?_, ?_, hsorted, ?_⟩
  · intro h
    rw [← hdom h, List.mem_map, List.mem_map]
    constructor
    · rintro ⟨st, hst, hsh⟩
      obtain ⟨p, hp, hpst⟩ := (hmem st).mp hst
      refine ⟨p, hp, ?_⟩
      rw [← hsh, ← hpst]
      exact (hkeys p hp).symm
    · rintro ⟨p, hp, hph⟩
      refine ⟨_, (hmem _).mpr ⟨p, hp, rfl⟩, ?_⟩
      rw [← hph]
      exact hkeys p hp
  · rw [List.Nodup, List.pairwise_map]
    refine hsorted.imp ?_
    intro a b hab heq
    rw [heq, strLt_irrefl] at hab
    exact absurd hab (by decide)
  · intro st hst
    obtain ⟨p, hp, hpst⟩ := (hmem st).mp hst
    have hsrv : st.Server = p.1 := by
      rw [← hpst]
      exact hkeys p hp
    have hget : mapGet m.serverStatus p.1 = some p.2 :=
      mapGet_of_mem _ _ _ hnodup hp
    refine ⟨?_, p.2, ?_, ?_, ?_⟩
    · rw [hsrv, ← hpst]
    · rw [hsrv]
      exact hget
    · rw [← hpst]
    · rw [← hpst]

/-- Instance of C14: `web1`, `db1`, `web1` were appended; read 61 s after the
last sample of `web1` and 91 s after the one of `db1`, the listing is `db1`
(offline), `web1` (timeout). -/
theorem server_status_listing_witness :
    appendAll plainLib (NewMetricsStorage "data".toList 120) sampleTwoHosts =
      some sampleTwoHostsStore ∧
    (sampleTwoHostsStore.GetServerStatus plainLib
      { nanos := 1714557721 * second, zoneOffset := 0 }).map (fun s => (s.Server, s.Status)) =
      [("db1".toList, "offline".toList), ("web1".toList, "timeout".toList)] ∧
    (sampleTwoHostsStore.GetServerStatus plainLib
      { nanos := 1714557721 * second, zoneOffset := 0 }).Pairwise
      (fun a b => strLt a.Server b.Server = true) :=
  ⟨by decide, by decide,
    (server_status_listing plainLib { nanos := 1714557721 * second, zoneOffset := 0 }
      "data".toList 120 sampleTwoHosts sampleTwoHostsStore (by decide)).2.2.1⟩

/-! ## Stored status and the limit of the metrics query -/

/-- The records of the status table after an `Append` that returns: each is a
record of the table before, or has the `Status` of such a record, or is
`online`. -/
theorem Append_status_online (lib : Lib) (clock : Clock) (m m1 : MetricsStorage)
    (entry : MetricsEntry)
    (hinv : ∀ p ∈ m.serverStatus, p.2.Status = "online".toList)
    (happ : m.Append lib clock entry = some m1) :
    ∀ p ∈ m1.serverStatus, p.2.Status = "online".toList := by
  have hupd : ∀ m0 : MetricsStorage, m0.serverStatus = m.serverStatus →
      ∀ p ∈ (m0.updateServerStatus lib clock entry.Server entry).serverStatus,
        p.2.Status = "online".toList := by
    intro m0 h0 p hp
    unfold MetricsStorage.updateServerStatus at hp
    rw [h0] at hp
    cases hget : mapGet m.serverStatus entry.Server with
    | none =>
      rw [hget] at hp
      rcases mem_mapSet _ _ _ _ hp with h | h
      · rw [h]
      · exact hinv p h
    | some status =>
      rw [hget] at hp
      rcases mem_mapSet _ _ _ _ hp with h | h
      · rw [h]
        exact hinv (entry.Server, status) (mapGet_some_mem _ _ status hget)
      · exact hinv p h
  by_cases hs : entry.Server = []
  · have hm : m1 = m := by
      simp only [MetricsStorage.Append, hs, if_true, Option.some.injEq] at happ
      exact happ.symm
    rw [hm]
    exact hinv
  · unfold MetricsStorage.Append at happ
    simp only [hs, if_false] at happ
    cases hold : mapGet m.recentMetrics entry.Server with
    | none =>
      rw [hold] at happ
      simp only at happ
      by_cases hneg : m.maxPointsPerServer < 0
      · simp [hneg] at happ
      · simp only [hneg, if_false, Option.some.injEq] at happ
        subst happ
        exact hupd _ rfl
    | some old =>
      rw [hold] at happ
      simp only [Option.some.injEq] at happ
      subst happ
      exact hupd _ rfl

/-- With a non-negative capacity `Append` returns, and keeps the capacity. -/
theorem Append_returns (lib : Lib) (clock : Clock) (m : MetricsStorage) (entry : MetricsEntry)
    (hcap : 0 ≤ m.maxPointsPerServer) :
    ∃ m1, m.Append lib clock entry = some m1 ∧ m1.maxPointsPerServer = m.maxPointsPerServer := by
  have hneg : ¬ m.maxPointsPerServer < 0 := not_lt.mpr hcap
  unfold MetricsStorage.Append
  by_cases hs : entry.Server = []
  · exact ⟨m, by simp [hs], rfl⟩
  · simp only [hs, if_false]
    cases mapGet m.recentMetrics entry.Server with
    | none =>
      simp only [hneg, if_false]
      exact ⟨_, rfl, (updateServerStatus_recentMetrics _ _ _ _ _).2.1⟩
    | some old =>
      exact ⟨_, rfl, (updateServerStatus_recentMetrics _ _ _ _ _).2.1⟩

/-- One call that returns keeps every stored `Status` equal to `online`. -/
theorem stepMetrics_online (lib : Lib) (m m1 : MetricsStorage) (op : MetricsOp)
    (hinv : ∀ p ∈ m.serverStatus, p.2.Status = "online".toList)
    (hstep : stepMetrics lib m op = some m1) :
    ∀ p ∈ m1.serverStatus, p.2.Status = "online".toList := by
  cases op with
  | append clock entry => exact Append_status_online lib clock m m1 entry hinv hstep
  | getServerStatus clock =>
    simp only [stepMetrics, Option.some.injEq] at hstep
    rw [← hstep]
    exact hinv
  | getStats =>
    simp only [stepMetrics, Option.some.injEq] at hstep
    rw [← hstep]
    exact hinv

/-- A sequence of calls that returns keeps every stored `Status` equal to `online`. -/
theorem runMetrics_online (lib : Lib) (ops : List MetricsOp) :
    ∀ m m1 : MetricsStorage, (∀ p ∈ m.serverStatus, p.2.Status = "online".toList) →
      runMetrics lib m ops = some m1 →
      ∀ p ∈ m1.serverStatus, p.2.Status = "online".toList := by
  induction ops with
  | nil =>
    intro m m1 hinv hrun
    simp only [runMetrics, Option.some.injEq] at hrun
    rw [← hrun]
    exact hinv
  | cons op rest ih =>
    intro m m1 hinv hrun
    simp only [runMetrics] at hrun
    cases hstep : stepMetrics lib m op with
    | none =>
      rw [hstep] at hrun
      exact Option.noConfusion hrun
    | some m2 =>
      rw [hstep] at hrun
      exact ih m2 m1 (stepMetrics_online lib m m2 op hinv hstep) hrun

/-- With a non-negative capacity no call of a sequence panics. -/
theorem runMetrics_returns (lib : Lib) (ops : List MetricsOp) :
    ∀ m : MetricsStorage, 0 ≤ m.maxPointsPerServer → ∃ m1, runMetrics lib m ops = some m1 := by
  induction ops with
  | nil => exact fun m _ => ⟨m, rfl⟩
  | cons op rest ih =>
    intro m hcap
    have hstep : ∃ m2, stepMetrics lib m op = some m2 ∧
        m2.maxPointsPerServer = m.maxPointsPerServer := by
      cases op with
      | append clock entry => exact Append_returns lib clock m entry hcap
      | getServerStatus clock => exact ⟨m, rfl, rfl⟩
      | getStats => exact ⟨_, rfl, rfl⟩
    obtain ⟨m2, h2, hcap2⟩ := hstep
    obtain ⟨m1, h1⟩ := ih m2 (hcap2 ▸ hcap)
    exact ⟨m1, by simp only [runMetrics, h2, h1]⟩

/-- When every stored `Status` is `online`, `GetStats` counts every record. -/
theorem GetStats_all_online (m : MetricsStorage)
    (hinv : ∀ p ∈ m.serverStatus, p.2.Status = "online".toList) :
    m.GetStats.2.active_servers = m.GetStats.2.total_servers := by
  have hfilter : m.serverStatus.filter (fun p => decide (p.2.Status = "online".toList)) =
      m.serverStatus := by
    apply List.filter_eq_self.mpr
    intro p hp
    exact decide_eq_true (hinv p hp)
  simp only [MetricsStorage.GetStats, hfilter]

/-- C21: a sequence of `Append`, `GetServerStatus` and `GetStats` calls on a fresh
store with a non-negative capacity never panics, and in every state such a
sequence reaches from a fresh store every record of the status table has
`Status = "online"`, so that `GetStats` reports `active_servers` equal to
`total_servers`; `GetStats` reads no clock. -/
theorem stored_status_stays_online (lib : Lib) (dataDir : Str) (maxPoints : Int)
    (ops : List MetricsOp) :
    (0 ≤ maxPoints → ∃ m, runMetrics lib (NewMetricsStorage dataDir maxPoints) ops = some m) ∧
    ∀ m, runMetrics lib (NewMetricsStorage dataDir maxPoints) ops = some m →
      (∀ p ∈ m.serverStatus, p.2.Status = "online".toList) ∧
      m.GetStats.2.active_servers = m.GetStats.2.total_servers := by
  refine ⟨fun hcap => runMetrics_returns lib ops _ hcap, ?_⟩
  intro m hrun
  have hinv := runMetrics_online lib ops (NewMetricsStorage dataDir maxPoints) m
    (fun p hp => absurd hp (List.not_mem_nil p)) hrun
  exact ⟨hinv, GetStats_all_online m hinv⟩

/-- Instance of C21: `web1` reported once; 1000 s later `GetServerStatus` lists it
as `offline`, while the stored record is still `online` and `GetStats` reports
one active server of one. -/
theorem stored_status_stays_online_witness :
    runMetrics plainLib (NewMetricsStorage "data".toList 120) sampleOps = some sampleOpsStore ∧
    (sampleOpsStore.GetServerStatus plainLib
      { nanos := 1714558600 * second, zoneOffset := 0 }).map (fun s => s.Status) =
        ["offline".toList] ∧
    sampleOpsStore.GetStats.2.active_servers = 1 ∧
    ((∀ p ∈ sampleOpsStore.serverStatus, p.2.Status = "online".toList) ∧
      sampleOpsStore.GetStats.2.active_servers = sampleOpsStore.GetStats.2.total_servers) :=
  ⟨by decide, by decide, by decide,
    (stored_status_stays_online plainLib "data".toList 120 sampleOps).2 sampleOpsStore
      (by decide)⟩

/-- For a host with a non-empty stored sequence and `limit < 0`, `Query` takes
`start = len - limit`, which exceeds `len`, and `make` is called with the
negative length `len - start = limit`: the call panics. -/
theorem Query_negative_limit_panics (m : MetricsStorage) (server metricName : Str)
    (limit : Int) (entries : List MetricsEntry) (hserver : server ≠ [])
    (hget : mapGet m.recentMetrics server = some entries) (hne : entries ≠ [])
    (hneg : limit < 0) :
    m.Query server metricName limit = none := by
  have hlen : ¬ entries.length = 0 := fun h => hne (List.length_eq_zero.mp h)
  have hgt : (entries.length : Int) > limit := by omega
  unfold MetricsStorage.Query
  rw [if_neg hserver, hget]
  simp only [if_neg hlen, if_pos hgt]
  rw [if_pos (by omega)]

/-- C22 as stated fails for a negative limit: on the store that holds three
samples of `web1`, `Query("web1", "cpu", -1)` returns no list, of length at most
`max(-1, 0)` or other: the call panics. -/
theorem metrics_query_negative_limit_counterexample :
    "web1".toList ≠ [] ∧
    sampleMetrics.Query "web1".toList "cpu".toList (-1) = none ∧
    ¬ ∃ result, sampleMetrics.Query "web1".toList "cpu".toList (-1) = some result ∧
        (result.length : Int) ≤ max (-1) 0 := by
  have hnone := Query_negative_limit_panics sampleMetrics "web1".toList "cpu".toList (-1)
    [webSample 10, webSample 50, webSample 90] (by decide) (by decide) (by decide) (by decide)
  refine ⟨by decide, hnone, ?_⟩
  rintro ⟨result, hsome, -⟩
  rw [hnone] at hsome
  exact Option.noConfusion hsome

/-- C22, amended to `limit ≥ 0`: for every store, every non-empty server name
and every limit that is zero or positive, `Query` returns a list without a
runtime failure; the list has at most `max(limit, 0)` entries, and it is the
stored sequence from the index `start = max(len - limit, 0)`, which is at most
`len`, so that `start` and the length `len - start` of the result are within
range. -/
theorem metrics_query_total_for_nonnegative_limit (m : MetricsStorage)
    (server metricName : Str) (limit : Int) (hserver : server ≠ []) (hlimit : 0 ≤ limit) :
    ∃ result, m.Query server metricName limit = some result ∧
      (result.length : Int) ≤ max limit 0 ∧
      (((storedFor m server).length : Int) - limit).toNat ≤ (storedFor m server).length ∧
      result = (storedFor m server).drop (((storedFor m server).length : Int) - limit).toNat ∧
      result.length =
        (storedFor m server).length - (((storedFor m server).length : Int) - limit).toNat := by
  unfold MetricsStorage.Query storedFor
  rw [if_neg hserver]
  cases hget : mapGet m.recentMetrics server with
  | none =>
    refine ⟨[], rfl, ?_, ?_, ?_, ?_⟩
    · simp only [List.length_nil, Nat.cast_zero]
      omega
    · simp only [Option.getD_none, List.length_nil, Nat.cast_zero]
      omega
    · simp only [Option.getD_none, List.drop_nil]
    · simp only [Option.getD_none, List.length_nil]
      omega
  | some entries =>
    simp only [Option.getD_some]
    by_cases h0 : entries.length = 0
    · have hnil : entries = [] := List.length_eq_zero.mp h0
      subst hnil
      refine ⟨[], by simp, ?_, ?_, ?_, ?_⟩
      · simp only [List.length_nil, Nat.cast_zero]
        omega
      · simp only [List.length_nil, Nat.cast_zero]
        omega
      · simp only [List.drop_nil]
      · simp only [List.length_nil]
        omega
    · rw [if_neg h0]
      by_cases hgt : (entries.length : Int) > limit
      · simp only [if_pos hgt]
        rw [if_neg (by omega)]
        refine ⟨_, rfl, ?_, ?_, rfl, ?_⟩
        · rw [List.length_drop]
          omega
        · omega
        · rw [List.length_drop]
      · simp only [if_neg hgt]
        rw [if_neg (by omega)]
        have hstart : ((entries.length : Int) - limit).toNat = 0 := by omega
        refine ⟨_, rfl, ?_, ?_, ?_, ?_⟩
        · simp only [Int.toNat_zero, List.drop_zero]
          omega
        · omega
        · rw [hstart]
          rfl
        · rw [hstart]
          simp

/-- Instance of C22 as amended: on the store that holds three samples of `web1`,
the limit 0 gives the empty list and the limit 2 the last two samples. -/
theorem metrics_query_total_for_nonnegative_limit_witness :
    "web1".toList ≠ [] ∧ (0 : Int) ≤ 0 ∧
    sampleMetrics.Query "web1".toList "cpu".toList 0 = some [] ∧
    sampleMetrics.Query "web1".toList "cpu".toList 2 = some [webSample 50, webSample 90] ∧
    ∃ result, sampleMetrics.Query "web1".toList "cpu".toList 0 = some result ∧
      (result.length : Int) ≤ max 0 0 ∧
      (((storedFor sampleMetrics "web1".toList).length : Int) - 0).toNat ≤
        (storedFor sampleMetrics "web1".toList).length ∧
      result = (storedFor sampleMetrics "web1".toList).drop
        (((storedFor sampleMetrics "web1".toList).length : Int) - 0).toNat ∧
      result.length = (storedFor sampleMetrics "web1".toList).length -
        (((storedFor sampleMetrics "web1".toList).length : Int) - 0).toNat :=
  ⟨by decide, by decide, by decide, by decide,
    metrics_query_total_for_nonnegative_limit sampleMetrics "web1".toList "cpu".toList 0
      (by decide) (by decide)⟩

end MiniLog
